import Mathlib

/-!
# Merge sort versus hybrid merge/insertion sort: a verification development

Shallow embedding of `Code.cpp` (insertion sort on a range, the merge step, plain
merge sort, the hybrid merge sort with an insertion-sort cutoff, the array generator,
and the sweep and the timing loop of the benchmark harness) together with theorems
about it.

Modelling conventions.

* A `std::vector<T>` is a `List T`.  `operator[]` is undefined outside `[0, size)`,
  so reads and writes return `Option` and every function of the embedding that
  touches a vector returns `Option`: `none` stands for an out-of-range access.
* C++ `int` locals (`l`, `r`, `m`, `i`, `j`, `k`, `t`, `threshold`) are `Int`.
  The conversions the code performs, `static_cast<int>(a.size())` and
  `static_cast<size_t>(n)`, are modelled with their wrap-around, and so is the
  `long long` total of the timing loop.  That the index arithmetic of the two sorts
  stays inside the range of `int` is a theorem, stated on copies of the routines that
  track every index computation; the same copies show the one overflow a direct call
  can reach, `l + 1` in `insertion_sort` at `l = 2^31 - 1`.
* The sorting code only ever compares elements (`a[j] > key`, `a[i] <= a[j]`) and
  copies them.  The embedding is therefore written once for an arbitrary element
  type `α` with a projection `val : α → Int` giving the integer the comparisons
  see.  For the program itself `α = Int` and `val = id`; for stability statements
  `α` carries an identity that the comparisons cannot observe.
* Loops are recursive functions on the loop variables, with the loop's own exit
  test deciding termination.
* The random engine and the clock are inputs: the generator takes the values its two
  distributions return, the timing loop takes the clock differences of its runs.
* A division by zero has no result: `long_long_div` returns `none` for it.
-/

namespace Bench

/-! ## Vectors and integer conversion -/

/-- Conversion `static_cast<int>(n)` of a `size_t` value to a 32-bit `int`:
reduction modulo `2^32` into the range `[-2^31, 2^31)`. -/
def static_cast_int (n : Nat) : Int :=
  if n % 4294967296 < 2147483648 then ((n % 4294967296 : Nat) : Int)
  else ((n % 4294967296 : Nat) : Int) - 4294967296

/-- Read `a[i]`; `none` when `i` is outside `[0, a.size())`. -/
def vec_read {α : Type} (a : List α) (i : Int) : Option α :=
  if 0 ≤ i then a[i.toNat]? else none

/-- Write `a[i] = x`; `none` when `i` is outside `[0, a.size())`. -/
def vec_write {α : Type} (a : List α) (i : Int) (x : α) : Option (List α) :=
  if 0 ≤ i ∧ i.toNat < a.length then some (a.set i.toNat x) else none

/-! ## Insertion sort (`Code.cpp` lines 62-72) -/

/-- Inner loop `while (j >= l && a[j] > key) { a[j + 1] = a[j]; --j; }`.
Returns the array and the final `j`. -/
def insertion_sort_while {α : Type} (val : α → Int) (a : List α) (l : Int) (key : α) (j : Int) :
    Option (List α × Int) :=
  if l ≤ j then
    match vec_read a j with
    | none => none
    | some x =>
      if val x > val key then
        match vec_write a (j + 1) x with
        | none => none
        | some a1 => insertion_sort_while val a1 l key (j - 1)
      else some (a, j)
  else some (a, j)
termination_by (j - l + 1).toNat
decreasing_by omega

/-- Outer loop `for (int i = l + 1; i < r; ++i)` of `insertion_sort`, entered with
the current value of `i`. -/
def insertion_sort_for {α : Type} (val : α → Int) (a : List α) (l r i : Int) : Option (List α) :=
  if i < r then
    match vec_read a i with
    | none => none
    | some key =>
      match insertion_sort_while val a l key (i - 1) with
      | none => none
      | some (a1, j) =>
        match vec_write a1 (j + 1) key with
        | none => none
        | some a2 => insertion_sort_for val a2 l r (i + 1)
  else some a
termination_by (r - i).toNat
decreasing_by omega

/-- The function `insertion_sort(a, l, r)`.  The sum `l + 1` is taken in `Int`; it is the
`int` sum of the program when `l < 2^31 - 1`, and `insertion_sort_tracked` is the routine
with the overflow of `l + 1` at `l = 2^31 - 1`. -/
def insertion_sort {α : Type} (val : α → Int) (a : List α) (l r : Int) : Option (List α) :=
  insertion_sort_for val a l r (l + 1)

/-! ## Merge step (`Code.cpp` lines 74-88) -/

/-- First loop of `merge_range`:
`while (i < m && j < r) { if (a[i] <= a[j]) buf[k++] = a[i++]; else buf[k++] = a[j++]; }`.
The loop never writes to `a`, so the value copied into `buf` is the value just compared.
Returns the buffer and the final `i`, `j`, `k`. -/
def merge_range_while {α : Type} (val : α → Int) (a buf : List α) (m r i j k : Int) :
    Option (List α × Int × Int × Int) :=
  if i < m ∧ j < r then
    match vec_read a i, vec_read a j with
    | some x, some y =>
      if val x ≤ val y then
        match vec_write buf k x with
        | none => none
        | some buf1 => merge_range_while val a buf1 m r (i + 1) j (k + 1)
      else
        match vec_write buf k y with
        | none => none
        | some buf1 => merge_range_while val a buf1 m r i (j + 1) (k + 1)
    | _, _ => none
  else some (buf, i, j, k)
termination_by (m - i).toNat + (r - j).toNat
decreasing_by
  all_goals omega

/-- The two draining loops of `merge_range`, `while (i < m) buf[k++] = a[i++];` and
`while (j < r) buf[k++] = a[j++];`, which have the same shape: `i` runs up to `stop`.
Returns the buffer and the final `k`. -/
def merge_range_drain {α : Type} (a buf : List α) (stop i k : Int) : Option (List α × Int) :=
  if i < stop then
    match vec_read a i with
    | none => none
    | some x =>
      match vec_write buf k x with
      | none => none
      | some buf1 => merge_range_drain a buf1 stop (i + 1) (k + 1)
  else some (buf, k)
termination_by (stop - i).toNat
decreasing_by omega

/-- Copy-back loop of `merge_range`, `for (int t = l; t < r; ++t) a[t] = buf[t];`,
entered with the current value of `t`. -/
def merge_range_for {α : Type} (a buf : List α) (r t : Int) : Option (List α) :=
  if t < r then
    match vec_read buf t with
    | none => none
    | some x =>
      match vec_write a t x with
      | none => none
      | some a1 => merge_range_for a1 buf r (t + 1)
  else some a
termination_by (r - t).toNat
decreasing_by omega

/-- The function `merge_range(a, buf, l, m, r)`; returns the final `a` and `buf`. -/
def merge_range {α : Type} (val : α → Int) (a buf : List α) (l m r : Int) :
    Option (List α × List α) :=
  match merge_range_while val a buf m r l m l with
  | none => none
  | some (buf1, i, j, k) =>
    match merge_range_drain a buf1 m i k with
    | none => none
    | some (buf2, k2) =>
      match merge_range_drain a buf2 r j k2 with
      | none => none
      | some (buf3, _) =>
        match merge_range_for a buf3 r l with
        | none => none
        | some a1 => some (a1, buf3)

/-! ## Merge sort (`Code.cpp` lines 90-101) -/

/-- The function `merge_sort_rec(a, buf, l, r)`; `(r - l) / 2` is C++ integer
division, which truncates toward zero. -/
def merge_sort_rec {α : Type} (val : α → Int) (a buf : List α) (l r : Int) :
    Option (List α × List α) :=
  if r - l ≤ 1 then some (a, buf)
  else
    match merge_sort_rec val a buf l (l + (r - l).tdiv 2) with
    | none => none
    | some (a1, buf1) =>
      match merge_sort_rec val a1 buf1 (l + (r - l).tdiv 2) r with
      | none => none
      | some (a2, buf2) => merge_range val a2 buf2 l (l + (r - l).tdiv 2) r
termination_by (r - l).toNat
decreasing_by
  all_goals
    have hdiv : (r - l).tdiv 2 = (r - l) / 2 := by rw [Int.tdiv_eq_ediv] <;> omega
    omega

/-- The function `merge_sort(a)`: the scratch buffer `buf(a.size())` is
value-initialised, and only `a` is visible to the caller afterwards. -/
def merge_sort {α : Type} [Inhabited α] (val : α → Int) (a : List α) : Option (List α) :=
  match merge_sort_rec val a (List.replicate a.length default) 0 (static_cast_int a.length) with
  | none => none
  | some (a1, _) => some a1

/-! ## Hybrid merge sort (`Code.cpp` lines 103-119) -/

/-- The function `hybrid_merge_sort_rec(a, buf, l, r, threshold)`, with
`len = r - l` and `m = l + len / 2`. -/
def hybrid_merge_sort_rec {α : Type} (val : α → Int) (a buf : List α) (l r threshold : Int) :
    Option (List α × List α) :=
  if r - l ≤ 1 then some (a, buf)
  else if r - l ≤ threshold then
    match insertion_sort val a l r with
    | none => none
    | some a1 => some (a1, buf)
  else
    match hybrid_merge_sort_rec val a buf l (l + (r - l).tdiv 2) threshold with
    | none => none
    | some (a1, buf1) =>
      match hybrid_merge_sort_rec val a1 buf1 (l + (r - l).tdiv 2) r threshold with
      | none => none
      | some (a2, buf2) => merge_range val a2 buf2 l (l + (r - l).tdiv 2) r
termination_by (r - l).toNat
decreasing_by
  all_goals
    have hdiv : (r - l).tdiv 2 = (r - l) / 2 := by rw [Int.tdiv_eq_ediv] <;> omega
    omega

/-- The function `hybrid_merge_sort(a, threshold)`. -/
def hybrid_merge_sort {α : Type} [Inhabited α] (val : α → Int) (a : List α) (threshold : Int) :
    Option (List α) :=
  match hybrid_merge_sort_rec val a (List.replicate a.length default) 0
      (static_cast_int a.length) threshold with
  | none => none
  | some (a1, _) => some a1

/-- Instrumented copy of `hybrid_merge_sort_rec`: the same control flow and the same
effect on `a` and `buf`, with a ghost counter `calls` that is incremented exactly
where `merge_range` is invoked.  The program never reads the counter. -/
def hybrid_merge_sort_rec_counted {α : Type} (val : α → Int) (a buf : List α)
    (l r threshold : Int) (calls : Nat) : Option (List α × List α × Nat) :=
  if r - l ≤ 1 then some (a, buf, calls)
  else if r - l ≤ threshold then
    match insertion_sort val a l r with
    | none => none
    | some a1 => some (a1, buf, calls)
  else
    match hybrid_merge_sort_rec_counted val a buf l (l + (r - l).tdiv 2) threshold calls with
    | none => none
    | some (a1, buf1, c1) =>
      match hybrid_merge_sort_rec_counted val a1 buf1 (l + (r - l).tdiv 2) r threshold c1 with
      | none => none
      | some (a2, buf2, c2) =>
        match merge_range val a2 buf2 l (l + (r - l).tdiv 2) r with
        | none => none
        | some (a3, buf3) => some (a3, buf3, c2 + 1)
termination_by (r - l).toNat
decreasing_by
  all_goals
    have hdiv : (r - l).tdiv 2 = (r - l) / 2 := by rw [Int.tdiv_eq_ediv] <;> omega
    omega

/-! ## Benchmark harness: the sweep of `SortTester::run_all` (`Code.cpp` lines 126-180) -/

/-- One report row `type;n;algo;threshold;time_ms` as written to the output stream. -/
structure Row where
  type : String
  n : Int
  algo : String
  threshold : Int
  time_ms : Int
  deriving DecidableEq

/-- The three kinds of base sequence of the generator. -/
inductive Distribution where
  | random
  | reversed
  | almost_sorted
  deriving DecidableEq

/-- The two sorting routines under test. -/
inductive Algorithm where
  | merge
  | hybrid
  deriving DecidableEq

/-- Dispatch of `make_array` on the label `type`: `"random"` draws from the random base,
`"reversed"` from the reversed base, any other label from the almost-sorted base. -/
def make_array_kind (type : String) : Distribution :=
  if type = "random" then Distribution.random
  else if type = "reversed" then Distribution.reversed
  else Distribution.almost_sorted

/-- Dispatch of `measure_one` on the label `algo`: `"merge"` runs `merge_sort`, any other
label runs `hybrid_merge_sort`. -/
def measure_one_algorithm (algo : String) : Algorithm :=
  if algo = "merge" then Algorithm.merge else Algorithm.hybrid

/-- The threshold list `thresholds = {5, 10, 20, 30, 50}` of `run_all`. -/
def thresholds : List Int := [5, 10, 20, 30, 50]

/-- Loop `for (int n = 500; n <= 100000; n += 100)` of `run_all`, entered with the current
value of `n`; `row n` is the row the loop body writes for `n`. -/
def run_all_sizes (row : Int → Row) (n : Int) : List Row :=
  if n ≤ 100000 then row n :: run_all_sizes row (n + 100) else []
termination_by (100100 - n).toNat
decreasing_by omega

/-- The rows that `run_all` writes after the header line, in the order in which they are
written.  The averaged time comes from `measure_one`, which reads the clock and is taken
as a parameter. -/
def run_all (measure_one : String → Int → String → Int → Int) : List Row :=
  ["random", "reversed", "almost"].flatMap fun type =>
    run_all_sizes (fun n => ⟨type, n, "merge", 0, measure_one type n "merge" 0⟩) 500 ++
      thresholds.flatMap fun thr =>
        run_all_sizes (fun n => ⟨type, n, "hybrid", thr, measure_one type n "hybrid" thr⟩) 500

/-- The sweep tuple (distribution, n, algorithm, threshold) that a row reports on. -/
def sweep_tuple (row : Row) : Distribution × Int × Algorithm × Int :=
  (make_array_kind row.type, row.n, measure_one_algorithm row.algo, row.threshold)

/-! ## Array generator (`Code.cpp` lines 7-59) and the constants of `main` (lines 187-192) -/

/-- The data members of an `ArrayGenerator`; the random engine is replaced by the
sequences of values that the two distributions return (see `generate_base_arrays`). -/
structure ArrayGenerator where
  max_n : Nat
  min_val : Int
  max_val : Int
  random_base : List Int
  reversed_base : List Int
  almost_sorted_base : List Int

/-- Library contract of `std::sort` on a vector of `int`: the ascending rearrangement. -/
def std_sort (xs : List Int) : List Int :=
  xs.insertionSort (fun x y => x ≤ y)

/-- Loop `for (size_t i = 0; i < max_n_; ++i) random_base_[i] = dist(rng_);`, entered
with the current value of `i`; `dist i` is the value returned by the call of `dist(rng_)`
made at index `i`. -/
def fill_random_base (dist : Nat → Int) (max_n : Nat) (a : List Int) (i : Nat) :
    Option (List Int) :=
  if i < max_n then
    match vec_write a i (dist i) with
    | none => none
    | some a1 => fill_random_base dist max_n a1 (i + 1)
  else some a
termination_by max_n - i
decreasing_by omega

/-- Loop `for (size_t k = 0; k < num_swaps; ++k) { i = pos_dist(rng_); j = pos_dist(rng_);
std::swap(almost_sorted_base_[i], almost_sorted_base_[j]); }`, entered with the current
value of `k`; `pos_dist c` is the value returned by the call number `c` of
`pos_dist(rng_)`. -/
def swap_loop (pos_dist : Nat → Nat) (num_swaps : Nat) (a : List Int) (k : Nat) :
    Option (List Int) :=
  if k < num_swaps then
    match vec_read a (pos_dist (2 * k)), vec_read a (pos_dist (2 * k + 1)) with
    | some x, some y =>
      match vec_write a (pos_dist (2 * k)) y with
      | none => none
      | some a1 =>
        match vec_write a1 (pos_dist (2 * k + 1)) x with
        | none => none
        | some a2 => swap_loop pos_dist num_swaps a2 (k + 1)
    | _, _ => none
  else some a
termination_by num_swaps - k
decreasing_by omega

/-- The constructor of `ArrayGenerator` with its call of `generate_base_arrays()`.  The
engine `rng_` only feeds the two distributions, so it is represented by what they
return: `dist` for `uniform_int_distribution<int>(min_val, max_val)` and `pos_dist` for
`uniform_int_distribution<size_t>(0, max_n - 1)`. -/
def generate_base_arrays (max_n : Nat) (min_val max_val : Int) (dist : Nat → Int)
    (pos_dist : Nat → Nat) : Option ArrayGenerator :=
  match fill_random_base dist max_n (List.replicate max_n 0) 0 with
  | none => none
  | some random_base =>
    match swap_loop pos_dist (max_n / 100) (std_sort random_base) 0 with
    | none => none
    | some almost_sorted_base =>
      some ⟨max_n, min_val, max_val, random_base, (std_sort random_base).reverse,
        almost_sorted_base⟩

/-- The method `get_random(n)`: a copy of the first `n` elements of the random base;
`none` when `begin() + n` runs past the end. -/
def get_random (g : ArrayGenerator) (n : Nat) : Option (List Int) :=
  if n ≤ g.random_base.length then some (g.random_base.take n) else none

/-- The method `get_reversed(n)`. -/
def get_reversed (g : ArrayGenerator) (n : Nat) : Option (List Int) :=
  if n ≤ g.reversed_base.length then some (g.reversed_base.take n) else none

/-- The method `get_almost_sorted(n)`. -/
def get_almost_sorted (g : ArrayGenerator) (n : Nat) : Option (List Int) :=
  if n ≤ g.almost_sorted_base.length then some (g.almost_sorted_base.take n) else none

/-- Conversion `static_cast<size_t>(n)` of an `int` to a 64-bit `size_t`: reduction
modulo `2^64`. -/
def static_cast_size_t (n : Int) : Nat :=
  (n % 18446744073709551616).toNat

/-- The method `SortTester::make_array(type, n)`. -/
def make_array (g : ArrayGenerator) (type : String) (n : Int) : Option (List Int) :=
  if type = "random" then get_random g (static_cast_size_t n)
  else if type = "reversed" then get_reversed g (static_cast_size_t n)
  else get_almost_sorted g (static_cast_size_t n)

/-- Conversion `duration_cast<milliseconds>(elapsed).count()` of a clock difference given
in nanoseconds (the tick of `high_resolution_clock`): division by `10^6` truncating
toward zero. -/
def duration_cast_milliseconds (elapsed : Int) : Int :=
  elapsed.tdiv 1000000

/-- Reduction of an integer to the 64-bit `long long`: modulo `2^64` into the range
`[-2^63, 2^63)`, which is what the addition `total_ms += ms` leaves in `total_ms`. -/
def wrap_long_long (x : Int) : Int :=
  (x + 9223372036854775808) % 18446744073709551616 - 9223372036854775808

/-- Division `x / d` of two `long long` values: truncation toward zero; `none` for a zero
divisor and for `-2^63 / -1`, where the program has no defined result. -/
def long_long_div (x d : Int) : Option Int :=
  if d = 0 ∨ (x = -9223372036854775808 ∧ d = -1) then none else some (x.tdiv d)

/-- Loop `for (int rep = 0; rep < repeats_; ++rep)` of `measure_one`, entered with the
current values of `rep` and `total_ms`; `elapsed rep` is the clock difference
`now() - start` measured around the sort of run `rep`, and `total_ms` is a 64-bit
`long long`. -/
def measure_one_loop (g : ArrayGenerator) (repeats : Int) (elapsed : Nat → Int)
    (type : String) (n : Int) (algo : String) (threshold : Int) (rep : Int) (total_ms : Int) :
    Option Int :=
  if rep < repeats then
    match make_array g type n with
    | none => none
    | some a =>
      match (if algo = "merge" then merge_sort id a else hybrid_merge_sort id a threshold) with
      | none => none
      | some _ =>
        measure_one_loop g repeats elapsed type n algo threshold (rep + 1)
          (wrap_long_long (total_ms + duration_cast_milliseconds (elapsed rep.toNat)))
  else some total_ms
termination_by (repeats - rep).toNat
decreasing_by omega

/-- The method `SortTester::measure_one(type, n, algo, threshold)`, which returns
`total_ms / std::max(1, repeats_)`. -/
def measure_one (g : ArrayGenerator) (repeats : Int) (elapsed : Nat → Int)
    (type : String) (n : Int) (algo : String) (threshold : Int) : Option Int :=
  match measure_one_loop g repeats elapsed type n algo threshold 0 0 with
  | none => none
  | some total_ms => long_long_div total_ms (max 1 repeats)

/-- The constant `MAX_N` of `main`. -/
def MAX_N : Nat := 100000

/-- The constant `MIN_VAL` of `main`. -/
def MIN_VAL : Int := 0

/-- The constant `MAX_VAL` of `main`. -/
def MAX_VAL : Int := 6000

/-! ## The sorting routines with every index computation tracked

Copies of the sorting routines in which each result of `int` arithmetic on an index
(`static_cast<int>(a.size())`, `r - l`, `(r - l) / 2`, `l + (r - l) / 2`, `l + 1`, `i - 1`,
`j + 1`, `--j`, `++i`, `i++`, `j++`, `k++`, `++t`) must lie in a window `[lo, hi]`: a result
outside the window ends the run with `none`.  With the window of the 32-bit `int` this is
the undefined behaviour of signed overflow; a narrower window tracks how far the indices
travel.  Apart from these tests the routines are those above. -/

/-- Inner loop of `insertion_sort` with `j + 1` and `--j` tracked. -/
def insertion_sort_while_tracked {α : Type} (lo hi : Int) (val : α → Int) (a : List α)
    (l : Int) (key : α) (j : Int) : Option (List α × Int) :=
  if l ≤ j then
    match vec_read a j with
    | none => none
    | some x =>
      if val x > val key then
        if lo ≤ j + 1 ∧ j + 1 ≤ hi then
          match vec_write a (j + 1) x with
          | none => none
          | some a1 =>
            if lo ≤ j - 1 ∧ j - 1 ≤ hi then
              insertion_sort_while_tracked lo hi val a1 l key (j - 1)
            else none
        else none
      else some (a, j)
  else some (a, j)
termination_by (j - l + 1).toNat
decreasing_by omega

/-- Outer loop of `insertion_sort` with `i - 1`, `j + 1` and `++i` tracked. -/
def insertion_sort_for_tracked {α : Type} (lo hi : Int) (val : α → Int) (a : List α)
    (l r i : Int) : Option (List α) :=
  if i < r then
    match vec_read a i with
    | none => none
    | some key =>
      if lo ≤ i - 1 ∧ i - 1 ≤ hi then
        match insertion_sort_while_tracked lo hi val a l key (i - 1) with
        | none => none
        | some (a1, j) =>
          if lo ≤ j + 1 ∧ j + 1 ≤ hi then
            match vec_write a1 (j + 1) key with
            | none => none
            | some a2 =>
              if lo ≤ i + 1 ∧ i + 1 ≤ hi then
                insertion_sort_for_tracked lo hi val a2 l r (i + 1)
              else none
          else none
      else none
  else some a
termination_by (r - i).toNat
decreasing_by omega

/-- The function `insertion_sort` with `l + 1` tracked. -/
def insertion_sort_tracked {α : Type} (lo hi : Int) (val : α → Int) (a : List α)
    (l r : Int) : Option (List α) :=
  if lo ≤ l + 1 ∧ l + 1 ≤ hi then insertion_sort_for_tracked lo hi val a l r (l + 1)
  else none

/-- First loop of `merge_range` with `k++`, `i++` and `j++` tracked. -/
def merge_range_while_tracked {α : Type} (lo hi : Int) (val : α → Int) (a buf : List α)
    (m r i j k : Int) : Option (List α × Int × Int × Int) :=
  if i < m ∧ j < r then
    match vec_read a i, vec_read a j with
    | some x, some y =>
      if val x ≤ val y then
        match vec_write buf k x with
        | none => none
        | some buf1 =>
          if (lo ≤ k + 1 ∧ k + 1 ≤ hi) ∧ (lo ≤ i + 1 ∧ i + 1 ≤ hi) then
            merge_range_while_tracked lo hi val a buf1 m r (i + 1) j (k + 1)
          else none
      else
        match vec_write buf k y with
        | none => none
        | some buf1 =>
          if (lo ≤ k + 1 ∧ k + 1 ≤ hi) ∧ (lo ≤ j + 1 ∧ j + 1 ≤ hi) then
            merge_range_while_tracked lo hi val a buf1 m r i (j + 1) (k + 1)
          else none
    | _, _ => none
  else some (buf, i, j, k)
termination_by (m - i).toNat + (r - j).toNat
decreasing_by
  all_goals omega

/-- The draining loops of `merge_range` with `k++` and `i++` (or `j++`) tracked. -/
def merge_range_drain_tracked {α : Type} (lo hi : Int) (a buf : List α) (stop i k : Int) :
    Option (List α × Int) :=
  if i < stop then
    match vec_read a i with
    | none => none
    | some x =>
      match vec_write buf k x with
      | none => none
      | some buf1 =>
        if (lo ≤ k + 1 ∧ k + 1 ≤ hi) ∧ (lo ≤ i + 1 ∧ i + 1 ≤ hi) then
          merge_range_drain_tracked lo hi a buf1 stop (i + 1) (k + 1)
        else none
  else some (buf, k)
termination_by (stop - i).toNat
decreasing_by omega

/-- Copy-back loop of `merge_range` with `++t` tracked. -/
def merge_range_for_tracked {α : Type} (lo hi : Int) (a buf : List α) (r t : Int) :
    Option (List α) :=
  if t < r then
    match vec_read buf t with
    | none => none
    | some x =>
      match vec_write a t x with
      | none => none
      | some a1 =>
        if lo ≤ t + 1 ∧ t + 1 ≤ hi then merge_range_for_tracked lo hi a1 buf r (t + 1)
        else none
  else some a
termination_by (r - t).toNat
decreasing_by omega

/-- The function `merge_range` built from the tracked loops. -/
def merge_range_tracked {α : Type} (lo hi : Int) (val : α → Int) (a buf : List α)
    (l m r : Int) : Option (List α × List α) :=
  match merge_range_while_tracked lo hi val a buf m r l m l with
  | none => none
  | some (buf1, i, j, k) =>
    match merge_range_drain_tracked lo hi a buf1 m i k with
    | none => none
    | some (buf2, k2) =>
      match merge_range_drain_tracked lo hi a buf2 r j k2 with
      | none => none
      | some (buf3, _) =>
        match merge_range_for_tracked lo hi a buf3 r l with
        | none => none
        | some a1 => some (a1, buf3)

/-- The function `merge_sort_rec` with `r - l`, `(r - l) / 2` and `l + (r - l) / 2`
tracked. -/
def merge_sort_rec_tracked {α : Type} (lo hi : Int) (val : α → Int) (a buf : List α)
    (l r : Int) : Option (List α × List α) :=
  if lo ≤ r - l ∧ r - l ≤ hi then
    if r - l ≤ 1 then some (a, buf)
    else if (lo ≤ (r - l).tdiv 2 ∧ (r - l).tdiv 2 ≤ hi) ∧
        (lo ≤ l + (r - l).tdiv 2 ∧ l + (r - l).tdiv 2 ≤ hi) then
      match merge_sort_rec_tracked lo hi val a buf l (l + (r - l).tdiv 2) with
      | none => none
      | some (a1, buf1) =>
        match merge_sort_rec_tracked lo hi val a1 buf1 (l + (r - l).tdiv 2) r with
        | none => none
        | some (a2, buf2) => merge_range_tracked lo hi val a2 buf2 l (l + (r - l).tdiv 2) r
    else none
  else none
termination_by (r - l).toNat
decreasing_by
  all_goals
    have hdiv : (r - l).tdiv 2 = (r - l) / 2 := by rw [Int.tdiv_eq_ediv] <;> omega
    omega

/-- The function `merge_sort` with `static_cast<int>(a.size())` tracked. -/
def merge_sort_tracked {α : Type} [Inhabited α] (lo hi : Int) (val : α → Int)
    (a : List α) : Option (List α) :=
  if lo ≤ static_cast_int a.length ∧ static_cast_int a.length ≤ hi then
    match merge_sort_rec_tracked lo hi val a (List.replicate a.length default) 0
        (static_cast_int a.length) with
    | none => none
    | some (a1, _) => some a1
  else none

/-- The function `hybrid_merge_sort_rec` with `r - l`, `len / 2` and `l + len / 2`
tracked. -/
def hybrid_merge_sort_rec_tracked {α : Type} (lo hi : Int) (val : α → Int)
    (a buf : List α) (l r threshold : Int) : Option (List α × List α) :=
  if lo ≤ r - l ∧ r - l ≤ hi then
    if r - l ≤ 1 then some (a, buf)
    else if r - l ≤ threshold then
      match insertion_sort_tracked lo hi val a l r with
      | none => none
      | some a1 => some (a1, buf)
    else if (lo ≤ (r - l).tdiv 2 ∧ (r - l).tdiv 2 ≤ hi) ∧
        (lo ≤ l + (r - l).tdiv 2 ∧ l + (r - l).tdiv 2 ≤ hi) then
      match hybrid_merge_sort_rec_tracked lo hi val a buf l (l + (r - l).tdiv 2)
          threshold with
      | none => none
      | some (a1, buf1) =>
        match hybrid_merge_sort_rec_tracked lo hi val a1 buf1 (l + (r - l).tdiv 2) r
            threshold with
        | none => none
        | some (a2, buf2) => merge_range_tracked lo hi val a2 buf2 l (l + (r - l).tdiv 2) r
    else none
  else none
termination_by (r - l).toNat
decreasing_by
  all_goals
    have hdiv : (r - l).tdiv 2 = (r - l) / 2 := by rw [Int.tdiv_eq_ediv] <;> omega
    omega

/-- The function `hybrid_merge_sort` with `static_cast<int>(a.size())` tracked. -/
def hybrid_merge_sort_tracked {α : Type} [Inhabited α] (lo hi : Int) (val : α → Int)
    (a : List α) (threshold : Int) : Option (List α) :=
  if lo ≤ static_cast_int a.length ∧ static_cast_int a.length ≤ hi then
    match hybrid_merge_sort_rec_tracked lo hi val a (List.replicate a.length default) 0
        (static_cast_int a.length) threshold with
    | none => none
    | some (a1, _) => some a1
  else none

/-! ## Specification-level notions used by the theorems -/

/-- The elements of `a` at positions `[l, r)`. -/
def slice {α : Type} (a : List α) (l r : Int) : List α :=
  (a.drop l.toNat).take (r - l).toNat

/-- Functional description of one pass of the inner loop of `insertion_sort` followed by
`a[j + 1] = key`: `key` is placed just after the last element that is not greater. -/
def insert_from_right {α : Type} (val : α → Int) (key : α) (xs : List α) : List α :=
  xs.rdropWhile (fun x => decide (val x > val key)) ++
    key :: xs.rtakeWhile (fun x => decide (val x > val key))

/-- Functional description of `insertion_sort` on a whole range: the elements are
inserted one after the other, left to right. -/
def insertion_sorted {α : Type} (val : α → Int) (xs : List α) : List α :=
  xs.foldl (fun acc key => insert_from_right val key acc) []

/-- Functional description of the output of the merge step on two runs. -/
def merged {α : Type} (val : α → Int) (xs ys : List α) : List α :=
  List.merge xs ys (fun x y => decide (val x ≤ val y))

/-- The list `out` is a stable sorted rearrangement of `inp`: non-decreasing for the
comparison on `val`, a permutation of `inp`, and for every value `v` the elements of
value `v` occur in the same order as in `inp`. -/
def StableSortOf {α : Type} (val : α → Int) (out inp : List α) : Prop :=
  out.Pairwise (fun x y => val x ≤ val y) ∧ out.Perm inp ∧
    ∀ v : Int, out.filter (fun x => decide (val x = v)) = inp.filter (fun x => decide (val x = v))

/-- The sizes `500, 600, ..., 100000` in ascending order, as the specification lists
them. -/
def expected_sizes : List Int :=
  (List.range 996).map fun k : Nat => 500 + 100 * (k : Int)

/-- The sweep order in the words of the specification: for each distribution kind in the
order random, reversed, almost-sorted, first the plain merge sort tuples (threshold `0`)
for all sizes, then for each threshold in the order `5, 10, 20, 30, 50` the hybrid tuples
for all sizes. -/
def expected_sweep : List (Distribution × Int × Algorithm × Int) :=
  [Distribution.random, Distribution.reversed, Distribution.almost_sorted].flatMap fun kind =>
    expected_sizes.map (fun n => (kind, n, Algorithm.merge, (0 : Int))) ++
      ([5, 10, 20, 30, 50] : List Int).flatMap fun thr =>
        expected_sizes.map (fun n => (kind, n, Algorithm.hybrid, thr))

/-- The rows that one pass of the outer loop of `run_all` writes for the label `type`:
the plain merge sort rows, then the hybrid rows threshold by threshold. -/
def rows_of_type (measure_one : String → Int → String → Int → Int) (type : String) :
    List Row :=
  run_all_sizes (fun n => ⟨type, n, "merge", 0, measure_one type n "merge" 0⟩) 500 ++
    thresholds.flatMap fun thr =>
      run_all_sizes (fun n => ⟨type, n, "hybrid", thr, measure_one type n "hybrid" thr⟩) 500

/-- The vector `after` has the size of `before` and agrees with it at every position
outside `[l, r)`. -/
def unchanged_outside {α : Type} (l r : Int) (before after : List α) : Prop :=
  after.length = before.length ∧
    ∀ i : Nat, ((i : Int) < l ∨ r ≤ (i : Int)) → after[i]? = before[i]?

/-- The recursive calls of `merge_sort_rec`: a call on `parent = (l, r)` that passes the
test `r - l <= 1` calls itself on `(l, m)` and on `(m, r)` with `m = l + (r - l) / 2`. -/
def merge_sort_rec_calls (child parent : Int × Int) : Prop :=
  ¬ (parent.2 - parent.1 ≤ 1) ∧
    (child = (parent.1, parent.1 + (parent.2 - parent.1).tdiv 2) ∨
      child = (parent.1 + (parent.2 - parent.1).tdiv 2, parent.2))

/-- The recursive calls of `hybrid_merge_sort_rec` with a given threshold: a call on
`parent = (l, r)` that passes both tests `len <= 1` and `len <= threshold` calls itself on
`(l, m)` and on `(m, r)` with `m = l + len / 2`. -/
def hybrid_merge_sort_rec_calls (threshold : Int) (child parent : Int × Int) : Prop :=
  ¬ (parent.2 - parent.1 ≤ 1) ∧ ¬ (parent.2 - parent.1 ≤ threshold) ∧
    (child = (parent.1, parent.1 + (parent.2 - parent.1).tdiv 2) ∨
      child = (parent.1 + (parent.2 - parent.1).tdiv 2, parent.2))

/-! ## Reading and writing at the end of a known initial segment -/

theorem vec_read_at {α : Type} (pre : List α) (x : α) (post : List α) (i : Int)
    (hi : i = pre.length) : vec_read (pre ++ x :: post) i = some x := by
  subst hi
  have h : (pre ++ x :: post)[pre.length]? = some x := by
    rw [List.getElem?_append_right (le_refl _)]; simp
  simp only [vec_read, Int.toNat_ofNat, h]
  simp

theorem vec_write_at {α : Type} (pre : List α) (x y : α) (post : List α) (i : Int)
    (hi : i = pre.length) : vec_write (pre ++ x :: post) i y = some (pre ++ y :: post) := by
  subst hi
  simp [vec_write]

/-! ## Insertion sort -/

theorem insertion_sort_while_spec {α : Type} (val : α → Int) (key : α) (pre : List α) (l : Int)
    (hl : l = pre.length) (A : List α) :
    ∀ (d : α) (rest : List α) (j : Int), j = l + A.length - 1 →
      ∃ d1, insertion_sort_while val (pre ++ A ++ d :: rest) l key j =
        some (pre ++ A.rdropWhile (fun x => decide (val x > val key)) ++
            d1 :: (A.rtakeWhile (fun x => decide (val x > val key)) ++ rest),
          l + (A.rdropWhile (fun x => decide (val x > val key))).length - 1) := by
  induction A using List.reverseRecOn with
  | nil =>
    intro d rest j hj
    refine ⟨d, ?_⟩
    rw [insertion_sort_while]
    have : ¬ l ≤ j := by simp at hj; omega
    simp [this, hj]
  | append_singleton A0 x ih =>
    intro d rest j hj
    rw [insertion_sort_while]
    have hlj : l ≤ j := by simp at hj; omega
    have hrd : vec_read (pre ++ (A0 ++ [x]) ++ d :: rest) j = some x := by
      have := vec_read_at (pre ++ A0) x (d :: rest) j (by simp at hj ⊢; omega)
      simpa using this
    simp only [hlj, if_true, hrd]
    by_cases hx : val x > val key
    · have hwr : vec_write (pre ++ (A0 ++ [x]) ++ d :: rest) (j + 1) x
          = some (pre ++ A0 ++ x :: x :: rest) := by
        have := vec_write_at (pre ++ A0 ++ [x]) d x rest (j + 1) (by simp at hj ⊢; omega)
        simpa using this
      obtain ⟨d1, h1⟩ := ih x (x :: rest) (j - 1) (by simp at hj; omega)
      refine ⟨d1, ?_⟩
      simp only [hx, if_true, hwr, h1]
      simp [List.rdropWhile_concat, List.rtakeWhile_concat, hx]
    · refine ⟨d, ?_⟩
      simp only [hx, if_false]
      simp [List.rdropWhile_concat, List.rtakeWhile_concat, hx, hj]

theorem insert_from_right_nil {α : Type} (val : α → Int) (key : α) :
    insert_from_right val key [] = [key] := by
  simp [insert_from_right]

theorem insert_from_right_concat {α : Type} (val : α → Int) (key : α) (xs : List α) (x : α) :
    insert_from_right val key (xs ++ [x]) =
      if val x > val key then insert_from_right val key xs ++ [x] else xs ++ [x, key] := by
  by_cases hx : val x > val key
  · simp [insert_from_right, List.rdropWhile_concat, List.rtakeWhile_concat, hx]
  · simp [insert_from_right, List.rdropWhile_concat, List.rtakeWhile_concat, hx]

theorem insert_from_right_perm {α : Type} (val : α → Int) (key : α) (xs : List α) :
    (insert_from_right val key xs).Perm (xs ++ [key]) := by
  induction xs using List.reverseRecOn with
  | nil => simp [insert_from_right_nil]
  | append_singleton xs x ih =>
    rw [insert_from_right_concat]
    split
    · have h1 : (insert_from_right val key xs ++ [x]).Perm ((xs ++ [key]) ++ [x]) :=
        ih.append_right [x]
      refine h1.trans ?_
      rw [List.append_assoc, List.append_assoc]
      exact List.Perm.append_left xs (List.Perm.swap x key [])
    · simp

theorem insert_from_right_length {α : Type} (val : α → Int) (key : α) (xs : List α) :
    (insert_from_right val key xs).length = xs.length + 1 := by
  simpa using (insert_from_right_perm val key xs).length_eq

theorem insert_from_right_filter {α : Type} (val : α → Int) (key : α) (xs : List α) (v : Int) :
    (insert_from_right val key xs).filter (fun x => decide (val x = v)) =
      (xs ++ [key]).filter (fun x => decide (val x = v)) := by
  induction xs using List.reverseRecOn with
  | nil => simp [insert_from_right_nil]
  | append_singleton xs x ih =>
    rw [insert_from_right_concat]
    split
    · rename_i hx
      rw [List.filter_append, ih]
      by_cases h1 : val x = v
      · have h2 : ¬ val key = v := by omega
        simp [List.filter_append, List.filter_cons, h1, h2]
      · simp [List.filter_append, List.filter_cons, h1]
    · simp

theorem insert_from_right_sorted {α : Type} (val : α → Int) (key : α) (xs : List α)
    (h : xs.Pairwise (fun x y => val x ≤ val y)) :
    (insert_from_right val key xs).Pairwise (fun x y => val x ≤ val y) := by
  induction xs using List.reverseRecOn with
  | nil => simp [insert_from_right_nil]
  | append_singleton xs x ih =>
    rw [insert_from_right_concat]
    rw [List.pairwise_append] at h
    obtain ⟨hxs, -, hle⟩ := h
    split
    · rename_i hx
      rw [List.pairwise_append]
      refine ⟨ih hxs, by simp, ?_⟩
      intro a ha b hb
      have hb1 : b = x := by simpa using hb
      subst hb1
      have hmem := (insert_from_right_perm val key xs).mem_iff.mp ha
      rcases List.mem_append.mp hmem with h1 | h1
      · exact hle a h1 b (by simp)
      · have : a = key := by simpa using h1
        subst this
        omega
    · rename_i hx
      have hx1 : val x ≤ val key := by omega
      have e : xs ++ [x, key] = xs ++ ([x] ++ [key]) := by simp
      rw [e, List.pairwise_append]
      refine ⟨hxs, by simpa using hx1, ?_⟩
      intro a ha b hb
      have hax : val a ≤ val x := hle a ha x (by simp)
      rcases List.mem_append.mp hb with h1 | h1
      · have : b = x := by simpa using h1
        subst this; exact hax
      · have : b = key := by simpa using h1
        subst this; omega

theorem insert_fold_spec {α : Type} (val : α → Int) (rest : List α) :
    ∀ A : List α, A.Pairwise (fun x y => val x ≤ val y) →
      StableSortOf val (rest.foldl (fun acc key => insert_from_right val key acc) A)
        (A ++ rest) := by
  induction rest with
  | nil =>
    intro A hA
    exact ⟨by simpa using hA, by simp, by simp⟩
  | cons key rest ih =>
    intro A hA
    obtain ⟨h1, h2, h3⟩ := ih (insert_from_right val key A) (insert_from_right_sorted val key A hA)
    refine ⟨by simpa using h1, ?_, ?_⟩
    · simp only [List.foldl_cons]
      refine h2.trans ?_
      have := (insert_from_right_perm val key A).append_right rest
      simpa using this
    · intro v
      simp only [List.foldl_cons]
      rw [h3 v, List.filter_append, insert_from_right_filter, List.filter_append,
        List.filter_append, List.append_assoc, ← List.filter_append]
      simp

theorem insertion_sorted_spec {α : Type} (val : α → Int) (xs : List α) :
    StableSortOf val (insertion_sorted val xs) xs := by
  have := insert_fold_spec val xs [] (by simp)
  simpa [insertion_sorted] using this

theorem insertion_sort_for_spec {α : Type} (val : α → Int) (pre post : List α) (l r : Int)
    (hl : l = pre.length) (rest : List α) :
    ∀ (A : List α) (i : Int), i = l + A.length → r = i + rest.length →
      insertion_sort_for val (pre ++ A ++ rest ++ post) l r i =
        some (pre ++ rest.foldl (fun acc key => insert_from_right val key acc) A ++ post) := by
  induction rest with
  | nil =>
    intro A i hi hr
    rw [insertion_sort_for]
    have : ¬ i < r := by simp at hr; omega
    simp [this]
  | cons key rest ih =>
    intro A i hi hr
    rw [insertion_sort_for]
    have hir : i < r := by simp at hr; omega
    have hrd : vec_read (pre ++ A ++ key :: rest ++ post) i = some key := by
      have := vec_read_at (pre ++ A) key (rest ++ post) i (by simp; omega)
      simpa using this
    obtain ⟨d1, hw⟩ := insertion_sort_while_spec val key pre l hl A key (rest ++ post) (i - 1)
      (by omega)
    have e : pre ++ A ++ key :: rest ++ post = pre ++ A ++ key :: (rest ++ post) := by simp
    rw [← e] at hw
    have hwr := vec_write_at (pre ++ A.rdropWhile (fun x => decide (val x > val key))) d1 key
      (A.rtakeWhile (fun x => decide (val x > val key)) ++ (rest ++ post))
      (l + (A.rdropWhile (fun x => decide (val x > val key))).length - 1 + 1)
      (by simp; omega)
    simp only [hir, if_true, hrd, hw, hwr]
    have hlen := insert_from_right_length val key A
    have := ih (insert_from_right val key A) (i + 1) (by omega) (by simp at hr; omega)
    simp only [insert_from_right, List.append_assoc, List.cons_append, List.foldl_cons] at this ⊢
    exact this

theorem insertion_sort_spec {α : Type} (val : α → Int) (pre mid post : List α) (l r : Int)
    (hl : l = pre.length) (hr : r = l + mid.length) :
    insertion_sort val (pre ++ mid ++ post) l r =
      some (pre ++ insertion_sorted val mid ++ post) := by
  unfold insertion_sort
  cases mid with
  | nil =>
    rw [insertion_sort_for]
    have : ¬ l + 1 < r := by simp at hr; omega
    simp [this, insertion_sorted]
  | cons x rest =>
    have := insertion_sort_for_spec val pre post l r hl rest [x] (l + 1) (by simp)
      (by simp at hr; omega)
    simpa [insertion_sorted, insert_from_right_nil] using this

/-! ## Merge step -/

theorem merge_range_drain_spec {α : Type} (apost bpost : List α) (X : List α) :
    ∀ (apre bpre bmid : List α) (stop i k : Int), i = apre.length → stop = i + X.length →
      k = bpre.length → bmid.length = X.length →
      merge_range_drain (apre ++ X ++ apost) (bpre ++ bmid ++ bpost) stop i k =
        some (bpre ++ X ++ bpost, k + X.length) := by
  induction X with
  | nil =>
    intro apre bpre bmid stop i k hi hstop hk hb
    rw [merge_range_drain]
    have : ¬ i < stop := by simp at hstop; omega
    have hb0 : bmid = [] := by simpa using hb
    simp [this, hb0]
  | cons x X ih =>
    intro apre bpre bmid stop i k hi hstop hk hb
    cases bmid with
    | nil => simp at hb
    | cons b bmid =>
      rw [merge_range_drain]
      have hlt : i < stop := by simp at hstop; omega
      have hrd : vec_read (apre ++ x :: X ++ apost) i = some x := by
        have := vec_read_at apre x (X ++ apost) i hi
        simpa using this
      have hwr : vec_write (bpre ++ b :: bmid ++ bpost) k x =
          some (bpre ++ [x] ++ bmid ++ bpost) := by
        have := vec_write_at bpre b x (bmid ++ bpost) k hk
        simpa using this
      simp only [hlt, if_true, hrd, hwr]
      have := ih (apre ++ [x]) (bpre ++ [x]) bmid stop (i + 1) (k + 1) (by simp; omega)
        (by simp at hstop; omega) (by simp; omega) (by simpa using hb)
      simp only [List.append_assoc, List.singleton_append, List.length_cons, Nat.cast_add,
        Nat.cast_one] at this ⊢
      rw [this]
      simp; omega

theorem merge_range_for_spec {α : Type} (apost bpost : List α) (Y : List α) :
    ∀ (apre X bpre : List α) (r t : Int), t = apre.length → t = bpre.length →
      r = t + Y.length → X.length = Y.length →
      merge_range_for (apre ++ X ++ apost) (bpre ++ Y ++ bpost) r t =
        some (apre ++ Y ++ apost) := by
  induction Y with
  | nil =>
    intro apre X bpre r t ha hb hr hX
    rw [merge_range_for]
    have : ¬ t < r := by simp at hr; omega
    have hX0 : X = [] := by simpa using hX
    simp [this, hX0]
  | cons y Y ih =>
    intro apre X bpre r t ha hb hr hX
    cases X with
    | nil => simp at hX
    | cons x X =>
      rw [merge_range_for]
      have hlt : t < r := by simp at hr; omega
      have hrd : vec_read (bpre ++ y :: Y ++ bpost) t = some y := by
        have := vec_read_at bpre y (Y ++ bpost) t hb
        simpa using this
      have hwr : vec_write (apre ++ x :: X ++ apost) t y =
          some (apre ++ [y] ++ X ++ apost) := by
        have := vec_write_at apre x y (X ++ apost) t ha
        simpa using this
      simp only [hlt, if_true, hrd, hwr]
      have := ih (apre ++ [y]) X (bpre ++ [y]) r (t + 1) (by simp; omega) (by simp; omega)
        (by simp at hr; omega) (by simpa using hX)
      simp only [List.append_assoc, List.singleton_append] at this ⊢
      exact this

theorem merge_range_loops_spec {α : Type} (val : α → Int) (apost bpost : List α) (n : Nat) :
    ∀ (L R apre amid bpre bmid : List α) (m r i j k : Int), L.length + R.length = n →
      i = apre.length → m = i + L.length → j = m + amid.length → r = j + R.length →
      k = bpre.length → bmid.length = L.length + R.length →
      ∃ buf1 i1 j1 k1 buf2 k2 k3,
        merge_range_while val (apre ++ L ++ amid ++ R ++ apost) (bpre ++ bmid ++ bpost)
          m r i j k = some (buf1, i1, j1, k1) ∧
        merge_range_drain (apre ++ L ++ amid ++ R ++ apost) buf1 m i1 k1 = some (buf2, k2) ∧
        merge_range_drain (apre ++ L ++ amid ++ R ++ apost) buf2 r j1 k2 =
          some (bpre ++ merged val L R ++ bpost, k3) := by
  induction n with
  | zero =>
    intro L R apre amid bpre bmid m r i j k hn hi hm hj hr hk hb
    have hL : L = [] := by cases L <;> simp_all
    have hR : R = [] := by cases R <;> simp_all
    subst hL hR
    have hb0 : bmid = [] := by simpa using hb
    subst hb0
    have h1 : ¬ i < m := by simp at hm; omega
    have h2 : ¬ j < r := by simp at hr; omega
    refine ⟨bpre ++ [] ++ bpost, i, j, k, bpre ++ [] ++ bpost, k, k, ?_, ?_, ?_⟩
    · rw [merge_range_while]; simp [h1]
    · rw [merge_range_drain]; simp [h1]
    · rw [merge_range_drain]; simp [h2, merged]
  | succ n ih =>
    intro L R apre amid bpre bmid m r i j k hn hi hm hj hr hk hb
    cases L with
    | nil =>
      have h1 : ¬ i < m := by simp at hm; omega
      have hd := merge_range_drain_spec apost bpost R (apre ++ amid) bpre bmid r j k
        (by simp at hm hj ⊢; omega) hr hk (by simpa using hb)
      refine ⟨bpre ++ bmid ++ bpost, i, j, k, bpre ++ bmid ++ bpost, k, k + R.length, ?_, ?_, ?_⟩
      · rw [merge_range_while]; simp [h1]
      · rw [merge_range_drain]; simp [h1]
      · simpa [merged] using hd
    | cons x L =>
      cases R with
      | nil =>
        have h2 : ¬ j < r := by simp at hr; omega
        have hd := merge_range_drain_spec (amid ++ apost) bpost (x :: L) apre bpre bmid m i k
          hi hm hk (by simpa using hb)
        refine ⟨bpre ++ bmid ++ bpost, i, j, k, bpre ++ (x :: L) ++ bpost,
          k + (x :: L).length, k + (x :: L).length, ?_, ?_, ?_⟩
        · rw [merge_range_while]; simp [h2]
        · simpa using hd
        · rw [merge_range_drain]; simp [h2, merged]
      | cons y R =>
        cases bmid with
        | nil =>
          have hF : False := by
            simp only [List.length_cons, List.length_nil] at hb; omega
          exact hF.elim
        | cons b bmid =>
          have h1 : i < m := by simp at hm; omega
          have h2 : j < r := by simp at hr; omega
          have hrx : vec_read (apre ++ x :: L ++ amid ++ y :: R ++ apost) i = some x := by
            have := vec_read_at apre x (L ++ amid ++ y :: R ++ apost) i hi
            simpa using this
          have hry : vec_read (apre ++ x :: L ++ amid ++ y :: R ++ apost) j = some y := by
            have := vec_read_at (apre ++ x :: L ++ amid) y (R ++ apost) j
              (by simp at hm hj ⊢; omega)
            simpa using this
          by_cases hxy : val x ≤ val y
          · have hwr : vec_write (bpre ++ b :: bmid ++ bpost) k x =
                some (bpre ++ [x] ++ bmid ++ bpost) := by
              have := vec_write_at bpre b x (bmid ++ bpost) k hk
              simpa using this
            obtain ⟨buf1, i1, j1, k1, buf2, k2, k3, e1, e2, e3⟩ :=
              ih L (y :: R) (apre ++ [x]) amid (bpre ++ [x]) bmid m r (i + 1) j (k + 1)
                (by simp at hn ⊢; omega) (by simp; omega) (by simp at hm; omega) hj hr
                (by simp; omega) (by simp at hb ⊢; omega)
            have ea : apre ++ [x] ++ L ++ amid ++ y :: R ++ apost =
                apre ++ x :: L ++ amid ++ y :: R ++ apost := by simp
            rw [ea] at e1 e2 e3
            refine ⟨buf1, i1, j1, k1, buf2, k2, k3, ?_, e2, ?_⟩
            · rw [merge_range_while]
              simp only [h1, h2, and_self, if_true, hrx, hry, hxy, hwr]
              exact e1
            · rw [e3]
              simp [merged, List.cons_merge_cons, hxy]
          · have hwr : vec_write (bpre ++ b :: bmid ++ bpost) k y =
                some (bpre ++ [y] ++ bmid ++ bpost) := by
              have := vec_write_at bpre b y (bmid ++ bpost) k hk
              simpa using this
            obtain ⟨buf1, i1, j1, k1, buf2, k2, k3, e1, e2, e3⟩ :=
              ih (x :: L) R apre (amid ++ [y]) (bpre ++ [y]) bmid m r i (j + 1) (k + 1)
                (by simp at hn ⊢; omega) hi hm (by simp at hj ⊢; omega)
                (by simp at hr; omega) (by simp; omega) (by simp at hb ⊢; omega)
            have ea : apre ++ x :: L ++ (amid ++ [y]) ++ R ++ apost =
                apre ++ x :: L ++ amid ++ y :: R ++ apost := by simp
            rw [ea] at e1 e2 e3
            refine ⟨buf1, i1, j1, k1, buf2, k2, k3, ?_, e2, ?_⟩
            · rw [merge_range_while]
              simp only [h1, h2, and_self, if_true, hrx, hry, hxy, if_false, hwr]
              exact e1
            · rw [e3]
              simp [merged, List.cons_merge_cons, hxy]

theorem merge_range_spec {α : Type} (val : α → Int) (pre L R post bpre bmid bpost : List α)
    (l m r : Int) (hl : l = pre.length) (hm : m = l + L.length) (hr : r = m + R.length)
    (hbl : bpre.length = pre.length) (hbm : bmid.length = L.length + R.length) :
    merge_range val (pre ++ L ++ R ++ post) (bpre ++ bmid ++ bpost) l m r =
      some (pre ++ merged val L R ++ post, bpre ++ merged val L R ++ bpost) := by
  obtain ⟨buf1, i1, j1, k1, buf2, k2, k3, e1, e2, e3⟩ :=
    merge_range_loops_spec val post bpost (L.length + R.length) L R pre [] bpre bmid m r l m l
      rfl hl hm (by simp) hr (by omega) hbm
  simp only [List.append_nil] at e1 e2 e3
  have hlen : (L ++ R).length = (merged val L R).length := by
    simp [merged, List.length_merge]
  have hf := merge_range_for_spec post bpost (merged val L R) pre (L ++ R) bpre r l hl
    (by omega) (by rw [← hlen]; simp; omega) hlen
  simp only [← List.append_assoc] at hf
  simp only [merge_range, e1, e2, e3, hf]

theorem merged_perm {α : Type} (val : α → Int) (xs ys : List α) :
    (merged val xs ys).Perm (xs ++ ys) :=
  List.merge_perm_append _

theorem merged_sorted {α : Type} (val : α → Int) (xs ys : List α)
    (hx : xs.Pairwise (fun x y => val x ≤ val y))
    (hy : ys.Pairwise (fun x y => val x ≤ val y)) :
    (merged val xs ys).Pairwise (fun x y => val x ≤ val y) := by
  have h := @List.sorted_merge α (fun x y => decide (val x ≤ val y))
    (by intro a b c; simp; omega) (by intro a b; simp; omega) xs ys
    (by simpa using hx) (by simpa using hy)
  simpa [merged] using h

theorem merged_filter {α : Type} (val : α → Int) (v : Int) (xs : List α) :
    ∀ ys : List α, xs.Pairwise (fun x y => val x ≤ val y) →
      (merged val xs ys).filter (fun x => decide (val x = v)) =
        xs.filter (fun x => decide (val x = v)) ++ ys.filter (fun x => decide (val x = v)) := by
  induction xs with
  | nil => intro ys _; simp [merged]
  | cons x xs ihx =>
    intro ys
    induction ys with
    | nil => intro _; simp [merged]
    | cons y ys ihy =>
      intro hs
      by_cases hxy : val x ≤ val y
      · have e : merged val (x :: xs) (y :: ys) = x :: merged val xs (y :: ys) := by
          simp [merged, List.cons_merge_cons, hxy]
        rw [e, List.filter_cons, ihx (y :: ys) (List.Pairwise.of_cons hs)]
        by_cases hv : val x = v <;> simp [List.filter_cons, hv]
      · have e : merged val (x :: xs) (y :: ys) = y :: merged val (x :: xs) ys := by
          simp [merged, List.cons_merge_cons, hxy]
        rw [e, List.filter_cons, ihy hs]
        by_cases hv : val y = v
        · have hnone : (x :: xs).filter (fun z => decide (val z = v)) = [] := by
            rw [List.filter_eq_nil_iff]
            intro z hz
            have hxz : val x ≤ val z := by
              rcases List.mem_cons.mp hz with h1 | h1
              · subst h1; exact le_refl _
              · exact List.rel_of_pairwise_cons hs h1
            simp; omega
          rw [hnone]
          simp [List.filter_cons, hv]
        · simp [List.filter_cons, hv]

/-! ## Stable sorted rearrangements -/

theorem stableSortOf_short {α : Type} (val : α → Int) (xs : List α) (h : xs.length ≤ 1) :
    StableSortOf val xs xs := by
  refine ⟨?_, List.Perm.refl _, fun _ => rfl⟩
  match xs, h with
  | [], _ => simp
  | [_], _ => simp

theorem stableSortOf_merged {α : Type} (val : α → Int) (L1 L R1 R : List α)
    (hL : StableSortOf val L1 L) (hR : StableSortOf val R1 R) :
    StableSortOf val (merged val L1 R1) (L ++ R) := by
  obtain ⟨hl1, hl2, hl3⟩ := hL
  obtain ⟨hr1, hr2, hr3⟩ := hR
  refine ⟨merged_sorted val L1 R1 hl1 hr1, (merged_perm val L1 R1).trans (hl2.append hr2), ?_⟩
  intro v
  rw [merged_filter val v L1 R1 hl1, hl3 v, hr3 v, List.filter_append]

theorem stableSortOf_length {α : Type} (val : α → Int) (out inp : List α)
    (h : StableSortOf val out inp) : out.length = inp.length :=
  h.2.1.length_eq

/-- Over the integers with `val = id` a stable sorted rearrangement is unique. -/
theorem stableSortOf_unique (xs ys inp : List Int) (hx : StableSortOf id xs inp)
    (hy : StableSortOf id ys inp) : xs = ys :=
  @List.eq_of_perm_of_sorted Int (fun a b : Int => a ≤ b) _ xs ys (hx.2.1.trans hy.2.1.symm)
    (by simpa [List.Sorted] using hx.1) (by simpa [List.Sorted] using hy.1)

/-! ## The recursive sorts on a range -/

theorem halves_merge_spec {α : Type} (val : α → Int)
    (pre L L1 R R1 post bpre bL1 bR1 bpost : List α) (l m r : Int)
    (hl : l = pre.length) (hm : m = l + L.length) (hr : r = m + R.length)
    (hbl : bpre.length = pre.length) (hbL : bL1.length = L.length) (hbR : bR1.length = R.length)
    (hL : StableSortOf val L1 L) (hR : StableSortOf val R1 R) :
    ∃ mid1 bmid1,
      merge_range val (pre ++ L1 ++ R1 ++ post) (bpre ++ bL1 ++ bR1 ++ bpost) l m r =
        some (pre ++ mid1 ++ post, bpre ++ bmid1 ++ bpost) ∧
      bmid1.length = L.length + R.length ∧ StableSortOf val mid1 (L ++ R) := by
  have h1 := stableSortOf_length val L1 L hL
  have h2 := stableSortOf_length val R1 R hR
  have hs := merge_range_spec val pre L1 R1 post bpre (bL1 ++ bR1) bpost l m r hl
    (by omega) (by omega) hbl (by simp; omega)
  refine ⟨merged val L1 R1, merged val L1 R1, ?_, ?_, stableSortOf_merged val L1 L R1 R hL hR⟩
  · simpa using hs
  · have := (merged_perm val L1 R1).length_eq
    simp at this; omega

theorem merge_sort_rec_spec {α : Type} (val : α → Int) (n : Nat) :
    ∀ (mid pre post bpre bmid bpost : List α) (l r : Int), mid.length ≤ n →
      l = pre.length → r = l + mid.length → bpre.length = pre.length →
      bmid.length = mid.length →
      ∃ mid1 bmid1,
        merge_sort_rec val (pre ++ mid ++ post) (bpre ++ bmid ++ bpost) l r =
          some (pre ++ mid1 ++ post, bpre ++ bmid1 ++ bpost) ∧
        bmid1.length = bmid.length ∧ StableSortOf val mid1 mid := by
  induction n with
  | zero =>
    intro mid pre post bpre bmid bpost l r hn hl hr hbp hbm
    refine ⟨mid, bmid, ?_, rfl, stableSortOf_short val mid (by omega)⟩
    rw [merge_sort_rec]
    have : r - l ≤ 1 := by omega
    simp [this]
  | succ n ih =>
    intro mid pre post bpre bmid bpost l r hn hl hr hbp hbm
    by_cases hshort : mid.length ≤ 1
    · refine ⟨mid, bmid, ?_, rfl, stableSortOf_short val mid hshort⟩
      rw [merge_sort_rec]
      have : r - l ≤ 1 := by omega
      simp [this]
    · have hlong : ¬ r - l ≤ 1 := by omega
      have hdiv : l + (r - l).tdiv 2 = l + ((mid.length / 2 : Nat) : Int) := by
        rw [Int.tdiv_eq_ediv] <;> omega
      have hLlen : (mid.take (mid.length / 2)).length = mid.length / 2 := by
        rw [List.length_take]; omega
      have hRlen : (mid.drop (mid.length / 2)).length = mid.length - mid.length / 2 := by
        rw [List.length_drop]
      have hbLlen : (bmid.take (mid.length / 2)).length = mid.length / 2 := by
        rw [List.length_take]; omega
      have hbRlen : (bmid.drop (mid.length / 2)).length = mid.length - mid.length / 2 := by
        rw [List.length_drop]; omega
      obtain ⟨L1, bL1, e1, hb1, hs1⟩ := ih (mid.take (mid.length / 2)) pre
        (mid.drop (mid.length / 2) ++ post) bpre (bmid.take (mid.length / 2))
        (bmid.drop (mid.length / 2) ++ bpost) l (l + ((mid.length / 2 : Nat) : Int))
        (by omega) hl (by omega) hbp (by omega)
      have hL1 := stableSortOf_length val _ _ hs1
      obtain ⟨R1, bR1, e2, hb2, hs2⟩ := ih (mid.drop (mid.length / 2)) (pre ++ L1)
        post (bpre ++ bL1) (bmid.drop (mid.length / 2)) bpost
        (l + ((mid.length / 2 : Nat) : Int)) r
        (by omega) (by simp; omega) (by omega) (by simp; omega) (by omega)
      obtain ⟨mid1, bmid1, e3, hb3, hs3⟩ := halves_merge_spec val pre
        (mid.take (mid.length / 2)) L1 (mid.drop (mid.length / 2)) R1 post bpre bL1 bR1 bpost
        l (l + ((mid.length / 2 : Nat) : Int)) r hl (by omega) (by omega) hbp (by omega)
        (by omega) hs1 hs2
      rw [List.take_append_drop] at hs3
      refine ⟨mid1, bmid1, ?_, by omega, hs3⟩
      rw [merge_sort_rec]
      have ea : pre ++ mid ++ post = pre ++ mid.take (mid.length / 2) ++
          (mid.drop (mid.length / 2) ++ post) := by
        conv_lhs => rw [← List.take_append_drop (mid.length / 2) mid]
        simp only [List.append_assoc]
      have eb : bpre ++ bmid ++ bpost = bpre ++ bmid.take (mid.length / 2) ++
          (bmid.drop (mid.length / 2) ++ bpost) := by
        conv_lhs => rw [← List.take_append_drop (mid.length / 2) bmid]
        simp only [List.append_assoc]
      have ea1 : pre ++ L1 ++ (mid.drop (mid.length / 2) ++ post) =
          pre ++ L1 ++ mid.drop (mid.length / 2) ++ post := by simp
      have eb1 : bpre ++ bL1 ++ (bmid.drop (mid.length / 2) ++ bpost) =
          bpre ++ bL1 ++ bmid.drop (mid.length / 2) ++ bpost := by simp
      rw [ea1, eb1] at e1
      simp only [hlong, if_false, hdiv, ea, eb, e1, e2, e3]

theorem hybrid_merge_sort_rec_spec {α : Type} (val : α → Int) (threshold : Int) (n : Nat) :
    ∀ (mid pre post bpre bmid bpost : List α) (l r : Int), mid.length ≤ n →
      l = pre.length → r = l + mid.length → bpre.length = pre.length →
      bmid.length = mid.length →
      ∃ mid1 bmid1,
        hybrid_merge_sort_rec val (pre ++ mid ++ post) (bpre ++ bmid ++ bpost) l r threshold =
          some (pre ++ mid1 ++ post, bpre ++ bmid1 ++ bpost) ∧
        bmid1.length = bmid.length ∧ StableSortOf val mid1 mid := by
  induction n with
  | zero =>
    intro mid pre post bpre bmid bpost l r hn hl hr hbp hbm
    refine ⟨mid, bmid, ?_, rfl, stableSortOf_short val mid (by omega)⟩
    rw [hybrid_merge_sort_rec]
    have : r - l ≤ 1 := by omega
    simp [this]
  | succ n ih =>
    intro mid pre post bpre bmid bpost l r hn hl hr hbp hbm
    by_cases hshort : mid.length ≤ 1
    · refine ⟨mid, bmid, ?_, rfl, stableSortOf_short val mid hshort⟩
      rw [hybrid_merge_sort_rec]
      have : r - l ≤ 1 := by omega
      simp [this]
    · have hlong : ¬ r - l ≤ 1 := by omega
      by_cases hthr : r - l ≤ threshold
      · refine ⟨insertion_sorted val mid, bmid, ?_, rfl, insertion_sorted_spec val mid⟩
        rw [hybrid_merge_sort_rec]
        simp only [hlong, if_false, hthr, if_true,
          insertion_sort_spec val pre mid post l r hl hr]
      · have hdiv : l + (r - l).tdiv 2 = l + ((mid.length / 2 : Nat) : Int) := by
          rw [Int.tdiv_eq_ediv] <;> omega
        have hLlen : (mid.take (mid.length / 2)).length = mid.length / 2 := by
          rw [List.length_take]; omega
        have hRlen : (mid.drop (mid.length / 2)).length = mid.length - mid.length / 2 := by
          rw [List.length_drop]
        have hbLlen : (bmid.take (mid.length / 2)).length = mid.length / 2 := by
          rw [List.length_take]; omega
        have hbRlen : (bmid.drop (mid.length / 2)).length = mid.length - mid.length / 2 := by
          rw [List.length_drop]; omega
        obtain ⟨L1, bL1, e1, hb1, hs1⟩ := ih (mid.take (mid.length / 2)) pre
          (mid.drop (mid.length / 2) ++ post) bpre (bmid.take (mid.length / 2))
          (bmid.drop (mid.length / 2) ++ bpost) l (l + ((mid.length / 2 : Nat) : Int))
          (by omega) hl (by omega) hbp (by omega)
        have hL1 := stableSortOf_length val _ _ hs1
        obtain ⟨R1, bR1, e2, hb2, hs2⟩ := ih (mid.drop (mid.length / 2)) (pre ++ L1)
          post (bpre ++ bL1) (bmid.drop (mid.length / 2)) bpost
          (l + ((mid.length / 2 : Nat) : Int)) r
          (by omega) (by simp; omega) (by omega) (by simp; omega) (by omega)
        obtain ⟨mid1, bmid1, e3, hb3, hs3⟩ := halves_merge_spec val pre
          (mid.take (mid.length / 2)) L1 (mid.drop (mid.length / 2)) R1 post bpre bL1 bR1 bpost
          l (l + ((mid.length / 2 : Nat) : Int)) r hl (by omega) (by omega) hbp (by omega)
          (by omega) hs1 hs2
        rw [List.take_append_drop] at hs3
        refine ⟨mid1, bmid1, ?_, by omega, hs3⟩
        rw [hybrid_merge_sort_rec]
        have ea : pre ++ mid ++ post = pre ++ mid.take (mid.length / 2) ++
            (mid.drop (mid.length / 2) ++ post) := by
          conv_lhs => rw [← List.take_append_drop (mid.length / 2) mid]
          simp only [List.append_assoc]
        have eb : bpre ++ bmid ++ bpost = bpre ++ bmid.take (mid.length / 2) ++
            (bmid.drop (mid.length / 2) ++ bpost) := by
          conv_lhs => rw [← List.take_append_drop (mid.length / 2) bmid]
          simp only [List.append_assoc]
        have ea1 : pre ++ L1 ++ (mid.drop (mid.length / 2) ++ post) =
            pre ++ L1 ++ mid.drop (mid.length / 2) ++ post := by simp
        have eb1 : bpre ++ bL1 ++ (bmid.drop (mid.length / 2) ++ bpost) =
            bpre ++ bL1 ++ bmid.drop (mid.length / 2) ++ bpost := by simp
        rw [ea1, eb1] at e1
        simp only [hlong, if_false, hthr, hdiv, ea, eb, e1, e2, e3]

/-- Erasing the ghost counter of the instrumented hybrid sort gives the hybrid sort. -/
theorem hybrid_merge_sort_rec_counted_erase {α : Type} (val : α → Int) (threshold : Int)
    (n : Nat) : ∀ (a buf : List α) (l r : Int) (calls : Nat), (r - l).toNat ≤ n →
      (hybrid_merge_sort_rec_counted val a buf l r threshold calls).map
          (fun p => (p.1, p.2.1)) =
        hybrid_merge_sort_rec val a buf l r threshold := by
  induction n with
  | zero =>
    intro a buf l r calls hn
    rw [hybrid_merge_sort_rec_counted, hybrid_merge_sort_rec]
    have : r - l ≤ 1 := by omega
    simp [this]
  | succ n ih =>
    intro a buf l r calls hn
    rw [hybrid_merge_sort_rec_counted, hybrid_merge_sort_rec]
    by_cases hshort : r - l ≤ 1
    · simp [hshort]
    · by_cases hthr : r - l ≤ threshold
      · simp only [hshort, if_false, hthr, if_true]
        cases insertion_sort val a l r <;> simp
      · have hdiv : (r - l).tdiv 2 = (r - l) / 2 := by rw [Int.tdiv_eq_ediv] <;> omega
        simp only [hshort, if_false, hthr]
        rw [← ih a buf l (l + (r - l).tdiv 2) calls (by omega)]
        cases h1 : hybrid_merge_sort_rec_counted val a buf l (l + (r - l).tdiv 2) threshold calls
          with
        | none => simp
        | some p1 =>
          obtain ⟨a1, buf1, c1⟩ := p1
          simp only [Option.map_some']
          rw [← ih a1 buf1 (l + (r - l).tdiv 2) r c1 (by omega)]
          cases h2 : hybrid_merge_sort_rec_counted val a1 buf1 (l + (r - l).tdiv 2) r
            threshold c1 with
          | none => simp
          | some p2 =>
            obtain ⟨a2, buf2, c2⟩ := p2
            simp only [Option.map_some']
            cases merge_range val a2 buf2 l (l + (r - l).tdiv 2) r <;> simp

/-! ## The conversion of the size and the top-level entry points -/

theorem static_cast_int_of_lt (n : Nat) (h : n < 2147483648) : static_cast_int n = n := by
  unfold static_cast_int
  have h1 : n % 4294967296 = n := Nat.mod_eq_of_lt (by omega)
  rw [h1]
  simp [h]

theorem static_cast_int_le (n : Nat) : static_cast_int n ≤ n := by
  unfold static_cast_int
  have h1 : n % 4294967296 ≤ n := Nat.mod_le _ _
  split <;> omega

/-- Top-level `merge_sort`: with `k` the converted size (`0` when it is negative), the first
`k` elements are replaced by a stable sorted rearrangement and the rest is left alone. -/
theorem merge_sort_top {α : Type} [Inhabited α] (val : α → Int) (S : List α) :
    ∃ mid1, merge_sort val S = some (mid1 ++ S.drop (static_cast_int S.length).toNat) ∧
      StableSortOf val mid1 (S.take (static_cast_int S.length).toNat) := by
  have hle := static_cast_int_le S.length
  by_cases hshort : static_cast_int S.length ≤ 1
  · refine ⟨S.take (static_cast_int S.length).toNat, ?_,
      stableSortOf_short val _ (by rw [List.length_take]; omega)⟩
    rw [List.take_append_drop]
    unfold merge_sort
    rw [merge_sort_rec]
    simp [hshort]
  · obtain ⟨mid1, bmid1, e, -, hs⟩ := merge_sort_rec_spec val S.length
      (S.take (static_cast_int S.length).toNat) [] (S.drop (static_cast_int S.length).toNat) []
      ((List.replicate S.length default).take (static_cast_int S.length).toNat)
      ((List.replicate S.length default).drop (static_cast_int S.length).toNat)
      0 (static_cast_int S.length) (by rw [List.length_take]; omega) (by simp)
      (by rw [List.length_take]; omega) rfl
      (by rw [List.length_take, List.length_take, List.length_replicate])
    refine ⟨mid1, ?_, hs⟩
    simp only [List.nil_append, List.take_append_drop] at e
    simp only [merge_sort, e]

/-- Top-level `hybrid_merge_sort`, described as `merge_sort_top` describes `merge_sort`. -/
theorem hybrid_merge_sort_top {α : Type} [Inhabited α] (val : α → Int) (S : List α)
    (threshold : Int) :
    ∃ mid1, hybrid_merge_sort val S threshold =
        some (mid1 ++ S.drop (static_cast_int S.length).toNat) ∧
      StableSortOf val mid1 (S.take (static_cast_int S.length).toNat) := by
  have hle := static_cast_int_le S.length
  by_cases hshort : static_cast_int S.length ≤ 1
  · refine ⟨S.take (static_cast_int S.length).toNat, ?_,
      stableSortOf_short val _ (by rw [List.length_take]; omega)⟩
    rw [List.take_append_drop]
    unfold hybrid_merge_sort
    rw [hybrid_merge_sort_rec]
    simp [hshort]
  · obtain ⟨mid1, bmid1, e, -, hs⟩ := hybrid_merge_sort_rec_spec val threshold S.length
      (S.take (static_cast_int S.length).toNat) [] (S.drop (static_cast_int S.length).toNat) []
      ((List.replicate S.length default).take (static_cast_int S.length).toNat)
      ((List.replicate S.length default).drop (static_cast_int S.length).toNat)
      0 (static_cast_int S.length) (by rw [List.length_take]; omega) (by simp)
      (by rw [List.length_take]; omega) rfl
      (by rw [List.length_take, List.length_take, List.length_replicate])
    refine ⟨mid1, ?_, hs⟩
    simp only [List.nil_append, List.take_append_drop] at e
    simp only [hybrid_merge_sort, e]

theorem stableSortOf_sorted_perm (out inp : List Int) (h : StableSortOf id out inp) :
    List.Sorted (fun x y => x ≤ y) out ∧ out.Perm inp :=
  ⟨by simpa [List.Sorted] using h.1, h.2.1⟩

theorem not_sorted_cons_replicate (x y : Int) (n : Nat) (hn : n ≠ 0) (hxy : y < x) :
    ¬ List.Sorted (fun a b : Int => a ≤ b) (x :: List.replicate n y) := by
  intro h
  have h1 := List.rel_of_sorted_cons h y (List.mem_replicate.mpr ⟨hn, rfl⟩)
  omega

theorem merge_sort_of_cast_le_one {α : Type} [Inhabited α] (val : α → Int) (S : List α)
    (h : static_cast_int S.length ≤ 1) : merge_sort val S = some S := by
  unfold merge_sort
  rw [merge_sort_rec]
  simp [h]

theorem hybrid_merge_sort_of_cast_le_one {α : Type} [Inhabited α] (val : α → Int) (S : List α)
    (threshold : Int) (h : static_cast_int S.length ≤ 1) :
    hybrid_merge_sort val S threshold = some S := by
  unfold hybrid_merge_sort
  rw [hybrid_merge_sort_rec]
  simp [h]

theorem static_cast_int_two_pow_31 : static_cast_int 2147483648 = -2147483648 := by
  decide

/-- A sort that rearranges the first `k` elements (with `k` the converted size) into a
stable sorted order and keeps the rest returns its own output unchanged when run again. -/
theorem resort_unchanged (f : List Int → Option (List Int))
    (hf : ∀ S : List Int, ∃ mid1, f S = some (mid1 ++ S.drop (static_cast_int S.length).toNat) ∧
      StableSortOf id mid1 (S.take (static_cast_int S.length).toNat)) (S : List Int) :
    ∃ S1, f S = some S1 ∧ f S1 = some S1 := by
  obtain ⟨m1, e1, hs1⟩ := hf S
  have hle := static_cast_int_le S.length
  have hm1 : m1.length = (static_cast_int S.length).toNat := by
    rw [stableSortOf_length id _ _ hs1, List.length_take]; omega
  have hlen : (m1 ++ S.drop (static_cast_int S.length).toNat).length = S.length := by
    rw [List.length_append, List.length_drop]; omega
  obtain ⟨m2, e2, hs2⟩ := hf (m1 ++ S.drop (static_cast_int S.length).toNat)
  rw [hlen, List.drop_left' hm1] at e2
  rw [hlen, List.take_left' hm1] at hs2
  have hself : StableSortOf id m1 m1 := ⟨hs1.1, List.Perm.refl _, fun _ => rfl⟩
  have := stableSortOf_unique m2 m1 m1 hs2 hself
  subst this
  exact ⟨_, e1, e2⟩

/-! ## Slices -/

theorem slice_mid {α : Type} (pre mid post : List α) (l r : Int) (hl : l = pre.length)
    (hr : r = l + mid.length) : slice (pre ++ mid ++ post) l r = mid := by
  have h1 : l.toNat = pre.length := by omega
  have h2 : (r - l).toNat = mid.length := by omega
  unfold slice
  rw [h1, h2, List.append_assoc, List.drop_left' rfl, List.take_left' rfl]

theorem slice_length {α : Type} (a : List α) (l r : Int) (h0 : 0 ≤ l) (hlr : l ≤ r)
    (hr : r ≤ a.length) : ((slice a l r).length : Int) = r - l := by
  unfold slice
  rw [List.length_take, List.length_drop]
  omega

theorem slice_append {α : Type} (a : List α) (l m r : Int) (h0 : 0 ≤ l) (hlm : l ≤ m)
    (hmr : m ≤ r) : slice a l m ++ slice a m r = slice a l r := by
  unfold slice
  have e1 : m.toNat = l.toNat + (m - l).toNat := by omega
  have e2 : (r - l).toNat = (m - l).toNat + (r - m).toNat := by omega
  rw [e1, e2, List.take_add, List.drop_drop]

theorem slice_decomp {α : Type} (a : List α) (l r : Int) (h0 : 0 ≤ l) (hlr : l ≤ r) :
    a.take l.toNat ++ slice a l r ++ a.drop r.toNat = a := by
  unfold slice
  have e : r.toNat = l.toNat + (r - l).toNat := by omega
  rw [e, List.append_assoc, ← List.drop_drop, List.take_append_drop, List.take_append_drop]

/-! ## The sorting claims -/

/-- C1 (amended): for every integer sequence `S` whose length fits in a 32-bit `int`,
`merge_sort` returns an array that is non-decreasing and a permutation of `S`
(hence of the same length); and `[5,3,1,4,2]` becomes `[1,2,3,4,5]`. -/
theorem merge_sort_sorts (S : List Int) (hlen : S.length ≤ 2147483647) :
    (∃ S1, merge_sort id S = some S1 ∧ List.Sorted (fun x y => x ≤ y) S1 ∧ S1.Perm S ∧
      S1.length = S.length) ∧
    merge_sort id [5, 3, 1, 4, 2] = some [1, 2, 3, 4, 5] := by
  constructor
  · obtain ⟨m1, e, hs⟩ := merge_sort_top id S
    have hc := static_cast_int_of_lt S.length (by omega)
    rw [hc] at e hs
    simp only [Int.toNat_ofNat, List.drop_length, List.append_nil, List.take_length] at e hs
    exact ⟨m1, e, (stableSortOf_sorted_perm m1 S hs).1, hs.2.1, hs.2.1.length_eq⟩
  · simp [merge_sort, merge_sort_rec, merge_range, merge_range_while, merge_range_drain,
      merge_range_for, vec_read, vec_write, static_cast_int, Int.tdiv]

/-- Witness for C1: the hypothesis holds at `[3,1,2]`. -/
theorem merge_sort_sorts_witness :
    (∃ S1, merge_sort id [3, 1, 2] = some S1 ∧ List.Sorted (fun x y => x ≤ y) S1 ∧
      S1.Perm [3, 1, 2] ∧ S1.length = [3, 1, 2].length) ∧
    merge_sort id [5, 3, 1, 4, 2] = some [1, 2, 3, 4, 5] :=
  merge_sort_sorts [3, 1, 2] (by decide)

/-- Counterexample to C1 as stated: on the sequence `1, 0, 0, ..., 0` of length `2^31` the
conversion `static_cast<int>(a.size())` yields `-2^31`, so `merge_sort` returns at once
and the array stays as it was, which is not non-decreasing. -/
theorem merge_sort_fails_beyond_int_range :
    merge_sort id (1 :: List.replicate 2147483647 (0 : Int)) =
        some (1 :: List.replicate 2147483647 (0 : Int)) ∧
      ¬ List.Sorted (fun x y : Int => x ≤ y) (1 :: List.replicate 2147483647 (0 : Int)) := by
  refine ⟨merge_sort_of_cast_le_one id _ ?_, not_sorted_cons_replicate 1 0 _ (by omega)
    (by omega)⟩
  rw [List.length_cons, List.length_replicate]
  exact le_of_eq_of_le static_cast_int_two_pow_31 (by omega)

/-- C2 (amended): for every integer sequence `S` whose length fits in a 32-bit `int` and
every threshold `T ≥ 0`, `hybrid_merge_sort` returns an array that is non-decreasing and
a permutation of `S` (hence of the same length). -/
theorem hybrid_merge_sort_sorts (S : List Int) (T : Int) (_hT : 0 ≤ T)
    (hlen : S.length ≤ 2147483647) :
    ∃ S1, hybrid_merge_sort id S T = some S1 ∧ List.Sorted (fun x y => x ≤ y) S1 ∧
      S1.Perm S ∧ S1.length = S.length := by
  obtain ⟨m1, e, hs⟩ := hybrid_merge_sort_top id S T
  have hc := static_cast_int_of_lt S.length (by omega)
  rw [hc] at e hs
  simp only [Int.toNat_ofNat, List.drop_length, List.append_nil, List.take_length] at e hs
  exact ⟨m1, e, (stableSortOf_sorted_perm m1 S hs).1, hs.2.1, hs.2.1.length_eq⟩

/-- Witness for C2: the hypotheses hold at `[4,2,9,2,7,1]` with threshold `3`. -/
theorem hybrid_merge_sort_sorts_witness :
    ∃ S1, hybrid_merge_sort id [4, 2, 9, 2, 7, 1] 3 = some S1 ∧
      List.Sorted (fun x y => x ≤ y) S1 ∧ S1.Perm [4, 2, 9, 2, 7, 1] ∧
      S1.length = [4, 2, 9, 2, 7, 1].length :=
  hybrid_merge_sort_sorts [4, 2, 9, 2, 7, 1] 3 (by decide) (by decide)

/-- Counterexample to C2 as stated: on the sequence `2, 1, 1, ..., 1` of length `2^31`
with threshold `5` the converted size is `-2^31`, so `hybrid_merge_sort` returns at once
and the array stays as it was, which is not non-decreasing. -/
theorem hybrid_merge_sort_fails_beyond_int_range :
    hybrid_merge_sort id (2 :: List.replicate 2147483647 (1 : Int)) 5 =
        some (2 :: List.replicate 2147483647 (1 : Int)) ∧
      ¬ List.Sorted (fun x y : Int => x ≤ y) (2 :: List.replicate 2147483647 (1 : Int)) := by
  refine ⟨hybrid_merge_sort_of_cast_le_one id _ 5 ?_, not_sorted_cons_replicate 2 1 _
    (by omega) (by omega)⟩
  rw [List.length_cons, List.length_replicate]
  exact le_of_eq_of_le static_cast_int_two_pow_31 (by omega)

/-- C3: for every integer sequence `S` and every threshold `T ≥ 0`, `hybrid_merge_sort(S, T)`
and `merge_sort(S)` both return, with the same final array; in particular so does
`hybrid_merge_sort(S, 0)`. -/
theorem hybrid_merge_sort_eq_merge_sort (S : List Int) (T : Int) (_hT : 0 ≤ T) :
    ∃ S1, merge_sort id S = some S1 ∧ hybrid_merge_sort id S T = some S1 ∧
      hybrid_merge_sort id S 0 = some S1 := by
  obtain ⟨m1, e1, hs1⟩ := merge_sort_top id S
  obtain ⟨m2, e2, hs2⟩ := hybrid_merge_sort_top id S T
  obtain ⟨m3, e3, hs3⟩ := hybrid_merge_sort_top id S 0
  have h2 := stableSortOf_unique m2 m1 _ hs2 hs1
  have h3 := stableSortOf_unique m3 m1 _ hs3 hs1
  subst h2 h3
  exact ⟨_, e1, e2, e3⟩

/-- Witness for C3: the hypothesis holds at `[5,3,1,4,2]` with threshold `2`. -/
theorem hybrid_merge_sort_eq_merge_sort_witness :
    ∃ S1, merge_sort id [5, 3, 1, 4, 2] = some S1 ∧
      hybrid_merge_sort id [5, 3, 1, 4, 2] 2 = some S1 ∧
      hybrid_merge_sort id [5, 3, 1, 4, 2] 0 = some S1 :=
  hybrid_merge_sort_eq_merge_sort [5, 3, 1, 4, 2] 2 (by decide)

/-- C4 (stability): run on elements of any type `α` whose integer value `val` is all the
comparisons see, `merge_sort` and `hybrid_merge_sort` at every threshold return an array
in which, for every value `v`, the elements of value `v` appear in the same relative
order as in the input. -/
theorem sorts_are_stable {α : Type} [Inhabited α] (val : α → Int) (S : List α) (T : Int) :
    ∃ S1 S2, merge_sort val S = some S1 ∧ hybrid_merge_sort val S T = some S2 ∧
      ∀ v : Int,
        S1.filter (fun x => decide (val x = v)) = S.filter (fun x => decide (val x = v)) ∧
        S2.filter (fun x => decide (val x = v)) = S.filter (fun x => decide (val x = v)) := by
  obtain ⟨m1, e1, hs1⟩ := merge_sort_top val S
  obtain ⟨m2, e2, hs2⟩ := hybrid_merge_sort_top val S T
  refine ⟨_, _, e1, e2, fun v => ⟨?_, ?_⟩⟩
  · rw [List.filter_append, hs1.2.2 v, ← List.filter_append, List.take_append_drop]
  · rw [List.filter_append, hs2.2.2 v, ← List.filter_append, List.take_append_drop]

/-- C5 (idempotence): for every integer sequence `S`, sorting the output of `merge_sort`
again with `merge_sort` leaves it unchanged, and for every threshold `T ≥ 0` the same
holds for `hybrid_merge_sort` with threshold `T`. -/
theorem sorts_idempotent (S : List Int) (T : Int) (_hT : 0 ≤ T) :
    (∃ S1, merge_sort id S = some S1 ∧ merge_sort id S1 = some S1) ∧
    (∃ S2, hybrid_merge_sort id S T = some S2 ∧ hybrid_merge_sort id S2 T = some S2) :=
  ⟨resort_unchanged (fun S => merge_sort id S) (fun S => merge_sort_top id S) S,
    resort_unchanged (fun S => hybrid_merge_sort id S T)
      (fun S => hybrid_merge_sort_top id S T) S⟩

/-- Witness for C5: the hypothesis holds at `[2,7,1,8,2,8]` with threshold `4`. -/
theorem sorts_idempotent_witness :
    (∃ S1, merge_sort id [2, 7, 1, 8, 2, 8] = some S1 ∧ merge_sort id S1 = some S1) ∧
    (∃ S2, hybrid_merge_sort id [2, 7, 1, 8, 2, 8] 4 = some S2 ∧
      hybrid_merge_sort id S2 4 = some S2) :=
  sorts_idempotent [2, 7, 1, 8, 2, 8] 4 (by decide)

/-- C6 (empty and singleton sequences): for every integer sequence `S` of length 0 or 1
and every threshold `T`, `merge_sort(S)` and `hybrid_merge_sort(S, T)` return `S`
unchanged. -/
theorem sorts_short_unchanged (S : List Int) (T : Int) (h : S.length = 0 ∨ S.length = 1) :
    merge_sort id S = some S ∧ hybrid_merge_sort id S T = some S := by
  have hc : static_cast_int S.length ≤ 1 := by
    rw [static_cast_int_of_lt S.length (by omega)]; omega
  exact ⟨merge_sort_of_cast_le_one id S hc, hybrid_merge_sort_of_cast_le_one id S T hc⟩

/-- Witness for C6: the hypothesis holds at the singleton `[7]` with threshold `3`. -/
theorem sorts_short_unchanged_witness :
    merge_sort id [7] = some [7] ∧ hybrid_merge_sort id [7] 3 = some [7] :=
  sorts_short_unchanged [7] 3 (Or.inr rfl)

/-- C7: for every integer sequence `S` and every threshold `T` with `length(S) ≤ T`,
`hybrid_merge_sort(S, T)` returns exactly the array that `insertion_sort(S, 0, length(S))`
returns (the `int` parameter `r` receives the converted `length(S)`, which is `length(S)`
itself unless `T` exceeds the `int` range), and the run performs no call of `merge_range`: the
ghost counter of the instrumented run stays `0` and the scratch buffer is untouched.
`[5,3,1,4,2]` with `T = 5` gives `[1,2,3,4,5]`. -/
theorem hybrid_delegates_to_insertion_sort (S : List Int) (T : Int)
    (h : (S.length : Int) ≤ T) :
    (∃ S1, insertion_sort id S 0 (static_cast_int S.length) = some S1 ∧
      hybrid_merge_sort id S T = some S1 ∧
      hybrid_merge_sort_rec_counted id S (List.replicate S.length default) 0
        (static_cast_int S.length) T 0 = some (S1, List.replicate S.length default, 0)) ∧
    (2147483647 < T ∨ static_cast_int S.length = S.length) ∧
    hybrid_merge_sort id [5, 3, 1, 4, 2] 5 = some [1, 2, 3, 4, 5] := by
  have hcast : 2147483647 < T ∨ static_cast_int S.length = S.length := by
    by_cases hT : 2147483647 < T
    · exact Or.inl hT
    · exact Or.inr (static_cast_int_of_lt S.length (by omega))
  refine ⟨?_, hcast, ?_⟩
  · have hle := static_cast_int_le S.length
    by_cases hshort : static_cast_int S.length - 0 ≤ 1
    · refine ⟨S, ?_, ?_, ?_⟩
      · unfold insertion_sort
        rw [insertion_sort_for]
        have : ¬ (0 + 1 < static_cast_int S.length) := by omega
        simp only [this, if_false]
      · exact hybrid_merge_sort_of_cast_le_one id S T (by omega)
      · rw [hybrid_merge_sort_rec_counted]
        simp only [hshort, if_true]
    · have hthr : static_cast_int S.length - 0 ≤ T := by omega
      have hins := insertion_sort_spec id [] (S.take (static_cast_int S.length).toNat)
        (S.drop (static_cast_int S.length).toNat) 0 (static_cast_int S.length) (by simp)
        (by rw [List.length_take]; omega)
      simp only [List.nil_append, List.take_append_drop] at hins
      refine ⟨_, hins, ?_, ?_⟩
      · unfold hybrid_merge_sort
        rw [hybrid_merge_sort_rec]
        simp only [hshort, if_false, hthr, if_true, hins]
      · rw [hybrid_merge_sort_rec_counted]
        simp only [hshort, if_false, hthr, if_true, hins]
  · simp [hybrid_merge_sort, hybrid_merge_sort_rec, insertion_sort, insertion_sort_for,
      insertion_sort_while, vec_read, vec_write, static_cast_int]

/-- Witness for C7: the hypothesis holds at `[5,3,1,4,2]` with threshold `5`. -/
theorem hybrid_delegates_to_insertion_sort_witness :
    (∃ S1, insertion_sort id [5, 3, 1, 4, 2] 0
        (static_cast_int ([5, 3, 1, 4, 2] : List Int).length) = some S1 ∧
      hybrid_merge_sort id [5, 3, 1, 4, 2] 5 = some S1 ∧
      hybrid_merge_sort_rec_counted id [5, 3, 1, 4, 2]
        (List.replicate ([5, 3, 1, 4, 2] : List Int).length default) 0
        (static_cast_int ([5, 3, 1, 4, 2] : List Int).length) 5 0 =
          some (S1, List.replicate ([5, 3, 1, 4, 2] : List Int).length default, 0)) ∧
    ((2147483647 : Int) < 5 ∨
      static_cast_int ([5, 3, 1, 4, 2] : List Int).length =
        ([5, 3, 1, 4, 2] : List Int).length) ∧
    hybrid_merge_sort id [5, 3, 1, 4, 2] 5 = some [1, 2, 3, 4, 5] :=
  hybrid_delegates_to_insertion_sort [5, 3, 1, 4, 2] 5 (by decide)

/-- C9: for every integer sequence `a`, scratch buffer `buf` with
`length(buf) ≥ length(a)` and indices `0 ≤ l ≤ m ≤ r ≤ length(a)` such that `a[l, m)` and
`a[m, r)` are each non-decreasing, `merge_range(a, buf, l, m, r)` returns, and afterwards
`a[l, r)` is non-decreasing and a permutation of the former `a[l, r)`, and `buf[l, r)`
holds the same values as `a[l, r)`. -/
theorem merge_range_sorted_perm (a buf : List Int) (l m r : Int) (hbuf : a.length ≤ buf.length)
    (h0 : 0 ≤ l) (hlm : l ≤ m) (hmr : m ≤ r) (hr : r ≤ a.length)
    (hL : List.Sorted (fun x y => x ≤ y) (slice a l m))
    (hR : List.Sorted (fun x y => x ≤ y) (slice a m r)) :
    ∃ a1 buf1, merge_range id a buf l m r = some (a1, buf1) ∧
      List.Sorted (fun x y => x ≤ y) (slice a1 l r) ∧ (slice a1 l r).Perm (slice a l r) ∧
      slice buf1 l r = slice a1 l r := by
  have hLlen := slice_length a l m h0 hlm (by omega)
  have hRlen := slice_length a m r (by omega) hmr hr
  have hBlen := slice_length buf l r h0 (by omega) (by omega)
  have hpre : ((a.take l.toNat).length : Int) = l := by
    rw [List.length_take]; omega
  have hbpre : ((buf.take l.toNat).length : Int) = l := by
    rw [List.length_take]; omega
  have hspec := merge_range_spec id (a.take l.toNat) (slice a l m) (slice a m r)
    (a.drop r.toNat) (buf.take l.toNat) (slice buf l r) (buf.drop r.toNat) l m r
    (by omega) (by omega) (by omega) (by omega) (by omega)
  have ea : a.take l.toNat ++ slice a l m ++ slice a m r ++ a.drop r.toNat = a := by
    rw [List.append_assoc (a.take l.toNat), slice_append a l m r h0 hlm hmr,
      slice_decomp a l r h0 (by omega)]
  rw [ea, slice_decomp buf l r h0 (by omega)] at hspec
  have hmlen : ((merged id (slice a l m) (slice a m r)).length : Int) = r - l := by
    have := (merged_perm id (slice a l m) (slice a m r)).length_eq
    rw [List.length_append] at this
    omega
  have hmid := slice_mid (a.take l.toNat) (merged id (slice a l m) (slice a m r))
    (a.drop r.toNat) l r (by omega) (by omega)
  have hbmid := slice_mid (buf.take l.toNat) (merged id (slice a l m) (slice a m r))
    (buf.drop r.toNat) l r (by omega) (by omega)
  refine ⟨_, _, hspec, ?_, ?_, ?_⟩
  · rw [hmid]
    have := merged_sorted id (slice a l m) (slice a m r) (by simpa [List.Sorted] using hL)
      (by simpa [List.Sorted] using hR)
    simpa [List.Sorted] using this
  · rw [hmid, ← slice_append a l m r h0 hlm hmr]
    exact merged_perm id _ _
  · rw [hmid, hbmid]

/-- Witness for C9: the hypotheses hold for the runs `[1, 3)` and `[3, 5)` of
`[9,2,6,1,7,0]` with a scratch buffer of seven zeros. -/
theorem merge_range_sorted_perm_witness :
    ∃ a1 buf1, merge_range id [9, 2, 6, 1, 7, 0] [0, 0, 0, 0, 0, 0, 0] 1 3 5 = some (a1, buf1) ∧
      List.Sorted (fun x y => x ≤ y) (slice a1 1 5) ∧
      (slice a1 1 5).Perm (slice [9, 2, 6, 1, 7, 0] 1 5) ∧ slice buf1 1 5 = slice a1 1 5 :=
  merge_range_sorted_perm [9, 2, 6, 1, 7, 0] [0, 0, 0, 0, 0, 0, 0] 1 3 5 (by decide) (by decide)
    (by decide) (by decide) (by decide) (by decide) (by decide)

/-! ## The sweep of the harness -/

theorem run_all_sizes_from (row : Int → Row) (c : Nat) :
    ∀ k : Nat, k + c = 996 →
      run_all_sizes row (500 + 100 * (k : Int)) =
        (List.range' k c).map (fun j : Nat => row (500 + 100 * (j : Int))) := by
  induction c with
  | zero =>
    intro k hk
    rw [run_all_sizes]
    have : ¬ (500 + 100 * (k : Int) ≤ 100000) := by omega
    simp [this]
  | succ c ih =>
    intro k hk
    rw [run_all_sizes]
    have h1 : 500 + 100 * (k : Int) ≤ 100000 := by omega
    have h2 : 500 + 100 * (k : Int) + 100 = 500 + 100 * ((k + 1 : Nat) : Int) := by
      push_cast; ring
    rw [if_pos h1, h2, ih (k + 1) (by omega), List.range'_succ, List.map_cons]

theorem run_all_sizes_eq (row : Int → Row) :
    run_all_sizes row 500 = expected_sizes.map row := by
  have := run_all_sizes_from row 996 0 (by omega)
  simp only [Nat.cast_zero, mul_zero, add_zero] at this
  rw [this, expected_sizes, List.range_eq_range', List.map_map]
  rfl

theorem expected_sizes_mem (n : Int) :
    n ∈ expected_sizes ↔ 500 ≤ n ∧ n ≤ 100000 ∧ (n - 500) % 100 = 0 := by
  simp only [expected_sizes, List.mem_map, List.mem_range]
  constructor
  · rintro ⟨k, hk, rfl⟩
    omega
  · rintro ⟨h1, h2, h3⟩
    exact ⟨((n - 500) / 100).toNat, by omega, by omega⟩

theorem expected_sizes_ascending : List.Sorted (fun x y : Int => x < y) expected_sizes := by
  unfold expected_sizes List.Sorted
  rw [List.pairwise_map]
  exact List.Pairwise.imp (fun {a b} (h : a < b) => by omega) (List.pairwise_lt_range 996)

/-- C10: whatever the measured times, the sweep tuples of the rows that `run_all` writes
are, in order: for each distribution kind in the order random, reversed, almost-sorted,
first `(kind, n, merge, 0)` for `n = 500, 600, ..., 100000` ascending, then for each
threshold in the order `5, 10, 20, 30, 50` the tuples `(kind, n, hybrid, threshold)` for
`n = 500, 600, ..., 100000` ascending; the list of sizes is strictly ascending and holds
exactly the integers from `500` to `100000` that are `500` plus a multiple of `100`. -/
theorem run_all_sweep_order (measure_one : String → Int → String → Int → Int) :
    (run_all measure_one).map sweep_tuple = expected_sweep ∧
      List.Sorted (fun x y : Int => x < y) expected_sizes ∧
      ∀ n : Int, n ∈ expected_sizes ↔ 500 ≤ n ∧ n ≤ 100000 ∧ (n - 500) % 100 = 0 := by
  refine ⟨?_, expected_sizes_ascending, expected_sizes_mem⟩
  simp only [run_all, expected_sweep, thresholds, run_all_sizes_eq, List.map_flatMap,
    List.map_append, List.map_map, List.flatMap_cons, List.flatMap_nil, List.append_nil]
  rfl

/-! ## Row counts and the sizes requested from the generator -/

theorem expected_sizes_length : expected_sizes.length = 996 := by
  simp [expected_sizes]

theorem run_all_sizes_length (row : Int → Row) : (run_all_sizes row 500).length = 996 := by
  rw [run_all_sizes_eq, List.length_map, expected_sizes_length]

theorem run_all_eq_rows_of_type (measure_one : String → Int → String → Int → Int) :
    run_all measure_one = rows_of_type measure_one "random" ++
      (rows_of_type measure_one "reversed" ++ rows_of_type measure_one "almost") := by
  simp only [run_all, rows_of_type, List.flatMap_cons, List.flatMap_nil, List.append_nil]

theorem rows_of_type_length (measure_one : String → Int → String → Int → Int)
    (type : String) : (rows_of_type measure_one type).length = 5976 := by
  simp only [rows_of_type, thresholds, List.flatMap_cons, List.flatMap_nil, List.append_nil,
    List.length_append, run_all_sizes_length]

theorem mem_rows_of_type (measure_one : String → Int → String → Int → Int) (type : String)
    (row : Row) (h : row ∈ rows_of_type measure_one type) :
    row.type = type ∧ row.n ∈ expected_sizes ∧
      row.time_ms = measure_one row.type row.n row.algo row.threshold := by
  simp only [rows_of_type, run_all_sizes_eq, List.mem_append, List.mem_flatMap,
    List.mem_map] at h
  rcases h with ⟨n, hn, rfl⟩ | ⟨thr, -, n, hn, rfl⟩
  · exact ⟨rfl, hn, rfl⟩
  · exact ⟨rfl, hn, rfl⟩

theorem filter_rows_of_type (measure_one : String → Int → String → Int → Int)
    (type : String) (kind : Distribution) :
    (rows_of_type measure_one type).filter
        (fun row => decide (make_array_kind row.type = kind)) =
      if make_array_kind type = kind then rows_of_type measure_one type else [] := by
  split
  · rename_i hk
    rw [List.filter_eq_self]
    intro row hrow
    rw [(mem_rows_of_type measure_one type row hrow).1]
    simpa using hk
  · rename_i hk
    rw [List.filter_eq_nil_iff]
    intro row hrow
    rw [(mem_rows_of_type measure_one type row hrow).1]
    simpa using hk

/-- C11: the size loop of `run_all` runs through 996 sizes (`500, 600, ..., 100000`) and
there are 5 thresholds; for each distribution kind `run_all` writes
`996 * (1 + 5) = 5976` rows, and the whole sweep writes `3 * 5976 = 17928` rows. -/
theorem run_all_row_count (measure_one : String → Int → String → Int → Int) :
    (∀ row : Int → Row, (run_all_sizes row 500).length = 996) ∧
      expected_sizes.length = 996 ∧ thresholds.length = 5 ∧
      (∀ kind : Distribution,
        ((run_all measure_one).filter
            (fun row => decide (make_array_kind row.type = kind))).length =
          expected_sizes.length * (1 + thresholds.length) ∧
        ((run_all measure_one).filter
            (fun row => decide (make_array_kind row.type = kind))).length = 5976) ∧
      (run_all measure_one).length = 3 * 5976 ∧ (run_all measure_one).length = 17928 := by
  have hk : ∀ kind : Distribution,
      ((run_all measure_one).filter
        (fun row => decide (make_array_kind row.type = kind))).length = 5976 := by
    intro kind
    rw [run_all_eq_rows_of_type, List.filter_append, List.filter_append,
      filter_rows_of_type, filter_rows_of_type, filter_rows_of_type]
    cases kind <;>
      simp [make_array_kind, rows_of_type_length]
  have hall : (run_all measure_one).length = 17928 := by
    rw [run_all_eq_rows_of_type, List.length_append, List.length_append, rows_of_type_length,
      rows_of_type_length, rows_of_type_length]
  refine ⟨run_all_sizes_length, expected_sizes_length, rfl, fun kind => ⟨?_, hk kind⟩,
    hall, hall⟩
  rw [hk kind, expected_sizes_length]
  rfl

/-! ## Bounds of vector accesses -/

theorem vec_read_eq_none_iff {α : Type} (a : List α) (i : Int) :
    vec_read a i = none ↔ (i < 0 ∨ (a.length : Int) ≤ i) := by
  unfold vec_read
  by_cases h : 0 ≤ i
  · simp only [h, if_true, List.getElem?_eq_none_iff]
    omega
  · simp only [h, if_false, true_iff]
    omega

theorem vec_write_eq_none_iff {α : Type} (a : List α) (i : Int) (x : α) :
    vec_write a i x = none ↔ (i < 0 ∨ (a.length : Int) ≤ i) := by
  unfold vec_write
  by_cases h : 0 ≤ i ∧ i.toNat < a.length
  · simp only [h, and_self, if_true]
    constructor
    · intro h1; cases h1
    · intro h1; omega
  · simp only [h, if_false, true_iff]
    omega

theorem vec_read_some_of_bounds {α : Type} (a : List α) (i : Int) (h0 : 0 ≤ i)
    (h1 : i < a.length) : ∃ x, vec_read a i = some x := by
  cases h : vec_read a i with
  | none => rw [vec_read_eq_none_iff] at h; omega
  | some x => exact ⟨x, rfl⟩

theorem vec_write_some_of_bounds {α : Type} (a : List α) (i : Int) (x : α) (h0 : 0 ≤ i)
    (h1 : i < a.length) : vec_write a i x = some (a.set i.toNat x) := by
  unfold vec_write
  have : 0 ≤ i ∧ i.toNat < a.length := ⟨h0, by omega⟩
  simp only [this, and_self, if_true]

theorem vec_write_length {α : Type} (a a1 : List α) (i : Int) (x : α)
    (h : vec_write a i x = some a1) : a1.length = a.length := by
  unfold vec_write at h
  split at h
  · cases h; simp
  · cases h

/-! ## The array generator -/

theorem fill_random_base_spec (dist : Nat → Int) (max_n : Nat) (todo : List Int) :
    ∀ (done : List Int) (i : Nat), i = done.length → max_n = i + todo.length →
      fill_random_base dist max_n (done ++ todo) i =
        some (done ++ (List.range' i todo.length).map dist) := by
  induction todo with
  | nil =>
    intro done i hi hn
    rw [fill_random_base]
    have : ¬ i < max_n := by simp at hn; omega
    simp [this]
  | cons t todo ih =>
    intro done i hi hn
    rw [fill_random_base]
    have hlt : i < max_n := by simp at hn; omega
    have hwr := vec_write_at done t (dist i) todo (i : Int) (by omega)
    simp only [hlt, if_true, hwr]
    have := ih (done ++ [dist i]) (i + 1) (by simp; omega) (by simp at hn; omega)
    simp only [List.append_assoc, List.singleton_append] at this
    rw [this]
    simp [List.range'_succ]

theorem fill_random_base_from_zero (dist : Nat → Int) (max_n : Nat) :
    fill_random_base dist max_n (List.replicate max_n 0) 0 =
      some ((List.range max_n).map dist) := by
  have := fill_random_base_spec dist max_n (List.replicate max_n 0) [] 0 rfl (by simp)
  simpa [List.range_eq_range'] using this

theorem swap_loop_some (pos_dist : Nat → Nat) (num_swaps : Nat) (c : Nat) :
    ∀ (a : List Int) (k : Nat), num_swaps - k ≤ c →
      (∀ d, d < 2 * num_swaps → pos_dist d < a.length) →
      ∃ a1, swap_loop pos_dist num_swaps a k = some a1 ∧ a1.length = a.length := by
  induction c with
  | zero =>
    intro a k hc _
    rw [swap_loop]
    have : ¬ k < num_swaps := by omega
    exact ⟨a, by simp [this], rfl⟩
  | succ c ih =>
    intro a k hc hp
    rw [swap_loop]
    by_cases hk : k < num_swaps
    · have hi := hp (2 * k) (by omega)
      have hj := hp (2 * k + 1) (by omega)
      obtain ⟨x, hx⟩ := vec_read_some_of_bounds a (pos_dist (2 * k)) (by omega) (by omega)
      obtain ⟨y, hy⟩ := vec_read_some_of_bounds a (pos_dist (2 * k + 1)) (by omega) (by omega)
      have hw1 := vec_write_some_of_bounds a (pos_dist (2 * k)) y (by omega) (by omega)
      have hl1 := vec_write_length _ _ _ _ hw1
      have hw2 := vec_write_some_of_bounds (a.set ((pos_dist (2 * k) : Nat) : Int).toNat y)
        (pos_dist (2 * k + 1)) x (by omega) (by omega)
      have hl2 := vec_write_length _ _ _ _ hw2
      obtain ⟨a1, h1, h2⟩ := ih _ (k + 1) (by omega) (by
        intro d hd
        rw [hl2, hl1]
        exact hp d hd)
      refine ⟨a1, ?_, by omega⟩
      simp only [hk, if_true, hx, hy, hw1, hw2]
      exact h1
    · exact ⟨a, by simp [hk], rfl⟩

theorem swap_loop_replicate (pos_dist : Nat → Nat) (num_swaps : Nat) (n : Nat) (v : Int)
    (hp : ∀ d, d < 2 * num_swaps → pos_dist d < n) (c : Nat) :
    ∀ k : Nat, num_swaps - k ≤ c →
      swap_loop pos_dist num_swaps (List.replicate n v) k = some (List.replicate n v) := by
  induction c with
  | zero =>
    intro k hc
    rw [swap_loop]
    have : ¬ k < num_swaps := by omega
    simp [this]
  | succ c ih =>
    intro k hc
    rw [swap_loop]
    by_cases hk : k < num_swaps
    · have hi := hp (2 * k) (by omega)
      have hj := hp (2 * k + 1) (by omega)
      have hr1 : vec_read (List.replicate n v) (pos_dist (2 * k)) = some v := by
        simp [vec_read, List.getElem?_replicate, hi]
      have hr2 : vec_read (List.replicate n v) (pos_dist (2 * k + 1)) = some v := by
        simp [vec_read, List.getElem?_replicate, hj]
      have hw1 : vec_write (List.replicate n v) (pos_dist (2 * k)) v =
          some (List.replicate n v) := by
        rw [vec_write_some_of_bounds _ _ _ (by omega) (by simp; omega),
          List.set_replicate_self]
      have hw2 : vec_write (List.replicate n v) (pos_dist (2 * k + 1)) v =
          some (List.replicate n v) := by
        rw [vec_write_some_of_bounds _ _ _ (by omega) (by simp; omega),
          List.set_replicate_self]
      simp only [hk, if_true, hr1, hr2, hw1, hw2]
      exact ih (k + 1) (by omega)
    · simp [hk]

theorem std_sort_replicate (n : Nat) (v : Int) :
    std_sort (List.replicate n v) = List.replicate n v := by
  unfold std_sort
  apply List.Sorted.insertionSort_eq
  unfold List.Sorted
  rw [List.pairwise_replicate]
  exact Or.inr (le_refl v)

theorem std_sort_length (xs : List Int) : (std_sort xs).length = xs.length :=
  List.length_insertionSort _ xs

theorem generate_base_arrays_some (max_n : Nat) (min_val max_val : Int) (dist : Nat → Int)
    (pos_dist : Nat → Nat) (hp : ∀ d, d < 2 * (max_n / 100) → pos_dist d < max_n) :
    ∃ almost, swap_loop pos_dist (max_n / 100) (std_sort ((List.range max_n).map dist)) 0 =
        some almost ∧ almost.length = max_n ∧
      generate_base_arrays max_n min_val max_val dist pos_dist =
        some ⟨max_n, min_val, max_val, (List.range max_n).map dist,
          (std_sort ((List.range max_n).map dist)).reverse, almost⟩ := by
  have hlen : (std_sort ((List.range max_n).map dist)).length = max_n := by
    rw [std_sort_length, List.length_map, List.length_range]
  obtain ⟨almost, h1, h2⟩ := swap_loop_some pos_dist (max_n / 100) (max_n / 100)
    (std_sort ((List.range max_n).map dist)) 0 (by omega) (by rw [hlen]; exact hp)
  refine ⟨almost, h1, by omega, ?_⟩
  simp only [generate_base_arrays, fill_random_base_from_zero, h1]

/-- C12: for every generator built with maximum size `N` and every sequence of draws
lying in `[min, max]` (positions lying in `[0, N - 1]`), construction succeeds; when
`min = max = v` the random, the reversed and the almost-sorted base are all `N` copies of
`v`; and when `N < 100` the number of swaps `N / 100` is `0` and the almost-sorted base is
the ascending sort of the random base. -/
theorem generate_base_arrays_constant (N : Nat) (min_val max_val : Int) (dist : Nat → Int)
    (pos_dist : Nat → Nat) (hd : ∀ i, min_val ≤ dist i ∧ dist i ≤ max_val)
    (hp : ∀ d, d < 2 * (N / 100) → pos_dist d < N) :
    ∃ g, generate_base_arrays N min_val max_val dist pos_dist = some g ∧
      (min_val = max_val →
        g.random_base = List.replicate N min_val ∧
        g.reversed_base = List.replicate N min_val ∧
        g.almost_sorted_base = List.replicate N min_val) ∧
      (N < 100 →
        N / 100 = 0 ∧ g.almost_sorted_base = std_sort g.random_base ∧
        List.Sorted (fun x y => x ≤ y) g.almost_sorted_base ∧
        g.almost_sorted_base.Perm g.random_base) := by
  obtain ⟨almost, h1, h2, h3⟩ := generate_base_arrays_some N min_val max_val dist pos_dist hp
  refine ⟨_, h3, ?_, ?_⟩
  · intro hv
    have hconst : (List.range N).map dist = List.replicate N min_val := by
      have hfun : dist = fun _ => min_val := by
        funext i
        have := hd i
        omega
      rw [hfun, List.map_const', List.length_range]
    rw [hconst, std_sort_replicate] at h1
    rw [swap_loop_replicate pos_dist (N / 100) N min_val hp (N / 100) 0 (by omega)] at h1
    cases h1
    simp only [hconst, std_sort_replicate, List.reverse_replicate, and_self]
  · intro hN
    have h0 : N / 100 = 0 := by omega
    rw [h0, swap_loop] at h1
    simp only [Nat.lt_irrefl, if_false, Option.some.injEq] at h1
    subst h1
    exact ⟨h0, rfl, List.sorted_insertionSort _ _, List.perm_insertionSort _ _⟩

/-- Witness for C12: `N = 10`, `min = max = 0`, every draw `0`: three bases of ten zeros. -/
theorem generate_base_arrays_constant_witness :
    ∃ g, generate_base_arrays 10 0 0 (fun _ => 0) (fun _ => 0) = some g ∧
      (g.random_base = List.replicate 10 0 ∧ g.reversed_base = List.replicate 10 0 ∧
        g.almost_sorted_base = List.replicate 10 0) ∧
      (10 / 100 = 0 ∧ g.almost_sorted_base = std_sort g.random_base ∧
        List.Sorted (fun x y => x ≤ y) g.almost_sorted_base ∧
        g.almost_sorted_base.Perm g.random_base) := by
  obtain ⟨g, h1, h2, h3⟩ := generate_base_arrays_constant 10 0 0 (fun _ => 0) (fun _ => 0)
    (by intro i; exact ⟨le_refl _, le_refl _⟩) (by intro d hd; omega)
  exact ⟨g, h1, h2 rfl, h3 (by decide)⟩

theorem swap_loop_length (pos_dist : Nat → Nat) (num_swaps : Nat) (c : Nat) :
    ∀ (a a1 : List Int) (k : Nat), num_swaps - k ≤ c →
      swap_loop pos_dist num_swaps a k = some a1 → a1.length = a.length := by
  induction c with
  | zero =>
    intro a a1 k hc h
    rw [swap_loop] at h
    have : ¬ k < num_swaps := by omega
    simp only [this, if_false, Option.some.injEq] at h
    rw [h]
  | succ c ih =>
    intro a a1 k hc h
    rw [swap_loop] at h
    by_cases hk : k < num_swaps
    · simp only [hk, if_true] at h
      cases hx : vec_read a (pos_dist (2 * k)) with
      | none => simp [hx] at h
      | some x =>
        cases hy : vec_read a (pos_dist (2 * k + 1)) with
        | none => simp [hx, hy] at h
        | some y =>
          simp only [hx, hy] at h
          cases hw1 : vec_write a (pos_dist (2 * k)) y with
          | none => simp [hw1] at h
          | some b1 =>
            simp only [hw1] at h
            cases hw2 : vec_write b1 (pos_dist (2 * k + 1)) x with
            | none => simp [hw2] at h
            | some b2 =>
              simp only [hw2] at h
              rw [ih b2 a1 (k + 1) (by omega) h, vec_write_length _ _ _ _ hw2,
                vec_write_length _ _ _ _ hw1]
    · simp only [hk, if_false, Option.some.injEq] at h
      rw [h]

theorem generate_base_arrays_lengths (max_n : Nat) (min_val max_val : Int)
    (dist : Nat → Int) (pos_dist : Nat → Nat) (g : ArrayGenerator)
    (h : generate_base_arrays max_n min_val max_val dist pos_dist = some g) :
    g.random_base.length = max_n ∧ g.reversed_base.length = max_n ∧
      g.almost_sorted_base.length = max_n := by
  simp only [generate_base_arrays, fill_random_base_from_zero] at h
  cases hs : swap_loop pos_dist (max_n / 100) (std_sort ((List.range max_n).map dist)) 0 with
  | none => simp [hs] at h
  | some almost =>
    simp only [hs, Option.some.injEq] at h
    subst h
    have hl := swap_loop_length pos_dist (max_n / 100) (max_n / 100) _ _ 0 (by omega) hs
    simp only [List.length_reverse, std_sort_length, List.length_map, List.length_range] at hl ⊢
    exact ⟨trivial, trivial, hl⟩

theorem make_array_of_le (g : ArrayGenerator) (type : String) (n : Int) (N : Nat)
    (hg : g.random_base.length = N ∧ g.reversed_base.length = N ∧
      g.almost_sorted_base.length = N) (h0 : 0 ≤ n) (hn : n ≤ N)
    (hsz : n < 18446744073709551616) :
    ∃ a, make_array g type n = some a ∧ (a.length : Int) = n := by
  have hc : static_cast_size_t n = n.toNat := by
    unfold static_cast_size_t
    rw [Int.emod_eq_of_lt h0 (by omega)]
  have hle : n.toNat ≤ N := by omega
  unfold make_array get_random get_reversed get_almost_sorted
  rw [hc, hg.1, hg.2.1, hg.2.2]
  simp only [hle, if_true]
  split
  · exact ⟨_, rfl, by rw [List.length_take, hg.1]; omega⟩
  · split
    · exact ⟨_, rfl, by rw [List.length_take, hg.2.1]; omega⟩
    · exact ⟨_, rfl, by rw [List.length_take, hg.2.2]; omega⟩

theorem mem_run_all (measure_one : String → Int → String → Int → Int) (row : Row)
    (h : row ∈ run_all measure_one) :
    row.n ∈ expected_sizes ∧
      row.time_ms = measure_one row.type row.n row.algo row.threshold := by
  rw [run_all_eq_rows_of_type] at h
  rcases List.mem_append.mp h with h1 | h1
  · exact (mem_rows_of_type measure_one _ row h1).2
  · rcases List.mem_append.mp h1 with h2 | h2
    · exact (mem_rows_of_type measure_one _ row h2).2
    · exact (mem_rows_of_type measure_one _ row h2).2

/-- C14: every row of `run_all` carries the label and the size that were passed to
`measure_one`, that size `n` satisfies `500 ≤ n ≤ 100000`, hence `n ≤ MAX_N`, and for
every generator that `main` can build (maximum size `MAX_N`, any draws) `make_array`
succeeds and returns `n` elements: the prefix read stays inside the base sequence. -/
theorem run_all_sizes_within_generator (measure_one : String → Int → String → Int → Int)
    (row : Row) (hrow : row ∈ run_all measure_one)
    (dist : Nat → Int) (pos_dist : Nat → Nat) (g : ArrayGenerator)
    (hg : generate_base_arrays MAX_N MIN_VAL MAX_VAL dist pos_dist = some g) :
    500 ≤ row.n ∧ row.n ≤ 100000 ∧ row.n ≤ (MAX_N : Int) ∧
      row.time_ms = measure_one row.type row.n row.algo row.threshold ∧
      ∃ a, make_array g row.type row.n = some a ∧ (a.length : Int) = row.n := by
  obtain ⟨hmem, htime⟩ := mem_run_all measure_one row hrow
  obtain ⟨h1, h2, -⟩ := (expected_sizes_mem row.n).mp hmem
  have hN : row.n ≤ (MAX_N : Int) := by
    unfold MAX_N
    omega
  exact ⟨h1, h2, hN, htime, make_array_of_le g row.type row.n MAX_N
    (generate_base_arrays_lengths _ _ _ _ _ g hg) (by omega) hN (by omega)⟩

theorem first_row_mem_run_all :
    (⟨"random", 500, "merge", 0, 0⟩ : Row) ∈ run_all (fun _ _ _ _ => 0) := by
  rw [run_all_eq_rows_of_type, rows_of_type, run_all_sizes]
  exact List.mem_append_left _ (List.mem_append_left _ (by
    rw [if_pos (by omega)]
    exact List.mem_cons_self _ _))

/-- Witness for C14: the first row of the sweep, with every measured time `0`, and the
generator of `main` when every draw is `0`. -/
theorem run_all_sizes_within_generator_witness :
    ∃ g, generate_base_arrays MAX_N MIN_VAL MAX_VAL (fun _ => 0) (fun _ => 0) = some g ∧
      (500 : Int) ≤ 500 ∧ (500 : Int) ≤ 100000 ∧ (500 : Int) ≤ (MAX_N : Int) ∧
      (0 : Int) = 0 ∧ ∃ a, make_array g "random" 500 = some a ∧ (a.length : Int) = 500 := by
  obtain ⟨almost, -, -, hg⟩ := generate_base_arrays_some MAX_N MIN_VAL MAX_VAL (fun _ => 0)
    (fun _ => 0) (by intro d _; show 0 < MAX_N; unfold MAX_N; omega)
  exact ⟨_, hg, run_all_sizes_within_generator (fun _ _ _ _ => 0)
    ⟨"random", 500, "merge", 0, 0⟩ first_row_mem_run_all _ _ _ hg⟩

/-! ## The averaged time -/

theorem unchanged_outside_of_decomp {α : Type} (pre mid mid1 post : List α) (l r : Int)
    (hl : l = pre.length) (hr : r = l + mid.length) (hlen : mid1.length = mid.length) :
    unchanged_outside l r (pre ++ mid ++ post) (pre ++ mid1 ++ post) := by
  refine ⟨by simp [hlen], ?_⟩
  intro i hi
  rcases hi with hi | hi
  · have h1 : i < pre.length := by omega
    rw [List.append_assoc, List.append_assoc, List.getElem?_append_left h1,
      List.getElem?_append_left h1]
  · have h1 : (pre ++ mid1).length ≤ i := by simp; omega
    have h2 : (pre ++ mid).length ≤ i := by simp; omega
    rw [List.getElem?_append_right h1, List.getElem?_append_right h2]
    simp [hlen]

theorem slice_getElem? {α : Type} (a : List α) (x y : Int) (i : Nat) :
    (slice a x y)[i]? = if i < (y - x).toNat then a[x.toNat + i]? else none := by
  unfold slice
  rw [List.getElem?_take, List.getElem?_drop]

theorem slice_eq_of_unchanged_outside {α : Type} (a a1 : List α) (l r x y : Int)
    (h : unchanged_outside l r a a1) (h0 : 0 ≤ x) (hd : y ≤ l ∨ r ≤ x) :
    slice a1 x y = slice a x y := by
  apply List.ext_getElem?
  intro i
  rw [slice_getElem?, slice_getElem?]
  split
  · exact h.2 (x.toNat + i) (by omega)
  · rfl

theorem insertion_sort_range {α : Type} (val : α → Int) (a : List α) (l r : Int)
    (h0 : 0 ≤ l) (hlr : l ≤ r) (hr : r ≤ a.length) :
    ∃ a1, insertion_sort val a l r = some a1 ∧ unchanged_outside l r a a1 := by
  have hlen := slice_length a l r h0 hlr hr
  have hpre : ((a.take l.toNat).length : Int) = l := by
    rw [List.length_take]; omega
  have hspec := insertion_sort_spec val (a.take l.toNat) (slice a l r) (a.drop r.toNat) l r
    (by omega) (by omega)
  have hfr := unchanged_outside_of_decomp (a.take l.toNat) (slice a l r)
    (insertion_sorted val (slice a l r)) (a.drop r.toNat) l r (by omega) (by omega)
    (stableSortOf_length val _ _ (insertion_sorted_spec val _))
  rw [slice_decomp a l r h0 hlr] at hspec hfr
  exact ⟨_, hspec, hfr⟩

theorem merge_range_range {α : Type} (val : α → Int) (a buf : List α) (l m r : Int)
    (h0 : 0 ≤ l) (hlm : l ≤ m) (hmr : m ≤ r) (hr : r ≤ a.length)
    (hbuf : a.length ≤ buf.length) :
    ∃ a1 buf1, merge_range val a buf l m r = some (a1, buf1) ∧
      unchanged_outside l r a a1 ∧ unchanged_outside l r buf buf1 := by
  have hLlen := slice_length a l m h0 hlm (by omega)
  have hRlen := slice_length a m r (by omega) hmr hr
  have hAlen := slice_length a l r h0 (by omega) hr
  have hBlen := slice_length buf l r h0 (by omega) (by omega)
  have hpre : ((a.take l.toNat).length : Int) = l := by
    rw [List.length_take]; omega
  have hbpre : ((buf.take l.toNat).length : Int) = l := by
    rw [List.length_take]; omega
  have hspec := merge_range_spec val (a.take l.toNat) (slice a l m) (slice a m r)
    (a.drop r.toNat) (buf.take l.toNat) (slice buf l r) (buf.drop r.toNat) l m r
    (by omega) (by omega) (by omega) (by omega) (by omega)
  have ea : a.take l.toNat ++ slice a l m ++ slice a m r ++ a.drop r.toNat = a := by
    rw [List.append_assoc (a.take l.toNat), slice_append a l m r h0 hlm hmr,
      slice_decomp a l r h0 (by omega)]
  have hmlen : (merged val (slice a l m) (slice a m r)).length =
      (slice a l m).length + (slice a m r).length := by
    have := (merged_perm val (slice a l m) (slice a m r)).length_eq
    rw [List.length_append] at this
    exact this
  have hfa := unchanged_outside_of_decomp (a.take l.toNat) (slice a l r)
    (merged val (slice a l m) (slice a m r)) (a.drop r.toNat) l r (by omega) (by omega)
    (by omega)
  have hfb := unchanged_outside_of_decomp (buf.take l.toNat) (slice buf l r)
    (merged val (slice a l m) (slice a m r)) (buf.drop r.toNat) l r (by omega) (by omega)
    (by omega)
  rw [ea, slice_decomp buf l r h0 (by omega)] at hspec
  rw [slice_decomp a l r h0 (by omega)] at hfa
  rw [slice_decomp buf l r h0 (by omega)] at hfb
  exact ⟨_, _, hspec, hfa, hfb⟩

theorem merge_sort_rec_range {α : Type} (val : α → Int) (a buf : List α) (l r : Int)
    (h0 : 0 ≤ l) (hlr : l ≤ r) (hr : r ≤ a.length) (hbuf : a.length ≤ buf.length) :
    ∃ a1 buf1, merge_sort_rec val a buf l r = some (a1, buf1) ∧
      unchanged_outside l r a a1 ∧ unchanged_outside l r buf buf1 := by
  have hAlen := slice_length a l r h0 hlr hr
  have hBlen := slice_length buf l r h0 hlr (by omega)
  have hpre : ((a.take l.toNat).length : Int) = l := by
    rw [List.length_take]; omega
  have hbpre : ((buf.take l.toNat).length : Int) = l := by
    rw [List.length_take]; omega
  obtain ⟨mid1, bmid1, e, hb, hs⟩ := merge_sort_rec_spec val (slice a l r).length
    (slice a l r) (a.take l.toNat) (a.drop r.toNat) (buf.take l.toNat) (slice buf l r)
    (buf.drop r.toNat) l r (le_refl _) (by omega) (by omega) (by omega) (by omega)
  have hfa := unchanged_outside_of_decomp (a.take l.toNat) (slice a l r) mid1
    (a.drop r.toNat) l r (by omega) (by omega) (stableSortOf_length val _ _ hs)
  have hfb := unchanged_outside_of_decomp (buf.take l.toNat) (slice buf l r) bmid1
    (buf.drop r.toNat) l r (by omega) (by omega) hb
  rw [slice_decomp a l r h0 hlr, slice_decomp buf l r h0 hlr] at e
  rw [slice_decomp a l r h0 hlr] at hfa
  rw [slice_decomp buf l r h0 hlr] at hfb
  exact ⟨_, _, e, hfa, hfb⟩

theorem hybrid_merge_sort_rec_range {α : Type} (val : α → Int) (a buf : List α)
    (l r threshold : Int) (h0 : 0 ≤ l) (hlr : l ≤ r) (hr : r ≤ a.length)
    (hbuf : a.length ≤ buf.length) :
    ∃ a1 buf1, hybrid_merge_sort_rec val a buf l r threshold = some (a1, buf1) ∧
      unchanged_outside l r a a1 ∧ unchanged_outside l r buf buf1 := by
  have hAlen := slice_length a l r h0 hlr hr
  have hBlen := slice_length buf l r h0 hlr (by omega)
  have hpre : ((a.take l.toNat).length : Int) = l := by
    rw [List.length_take]; omega
  have hbpre : ((buf.take l.toNat).length : Int) = l := by
    rw [List.length_take]; omega
  obtain ⟨mid1, bmid1, e, hb, hs⟩ := hybrid_merge_sort_rec_spec val threshold
    (slice a l r).length (slice a l r) (a.take l.toNat) (a.drop r.toNat) (buf.take l.toNat)
    (slice buf l r) (buf.drop r.toNat) l r (le_refl _) (by omega) (by omega) (by omega)
    (by omega)
  have hfa := unchanged_outside_of_decomp (a.take l.toNat) (slice a l r) mid1
    (a.drop r.toNat) l r (by omega) (by omega) (stableSortOf_length val _ _ hs)
  have hfb := unchanged_outside_of_decomp (buf.take l.toNat) (slice buf l r) bmid1
    (buf.drop r.toNat) l r (by omega) (by omega) hb
  rw [slice_decomp a l r h0 hlr, slice_decomp buf l r h0 hlr] at e
  rw [slice_decomp a l r h0 hlr] at hfa
  rw [slice_decomp buf l r h0 hlr] at hfb
  exact ⟨_, _, e, hfa, hfb⟩

/-! ## In-bounds accesses, termination, and small thresholds -/

/-- C16: for every integer sequence `S` of length at most `2^31 - 1` and every threshold
`T`, `merge_sort(S)` and `hybrid_merge_sort(S, T)` return a result, that is, no read or
write of `a` or `buf` reaches the out-of-bounds branch: a read or a write yields `none`
exactly when its index is outside `[0, size)`, every routine passes a `none` on, and a
write never changes the size. -/
theorem sorts_stay_in_bounds (S : List Int) (T : Int) (_hlen : S.length ≤ 2147483647) :
    (∃ S1, merge_sort id S = some S1 ∧ S1.length = S.length) ∧
    (∃ S2, hybrid_merge_sort id S T = some S2 ∧ S2.length = S.length) ∧
    (∀ (a : List Int) (i : Int), vec_read a i = none ↔ (i < 0 ∨ (a.length : Int) ≤ i)) ∧
    (∀ (a : List Int) (i : Int) (x : Int),
      vec_write a i x = none ↔ (i < 0 ∨ (a.length : Int) ≤ i)) ∧
    (∀ (a a1 : List Int) (i : Int) (x : Int),
      vec_write a i x = some a1 → a1.length = a.length) := by
  have hle := static_cast_int_le S.length
  refine ⟨?_, ?_, vec_read_eq_none_iff, vec_write_eq_none_iff, vec_write_length⟩
  · obtain ⟨m1, e, hs⟩ := merge_sort_top id S
    refine ⟨_, e, ?_⟩
    rw [List.length_append, stableSortOf_length id _ _ hs, List.length_take,
      List.length_drop]
    omega
  · obtain ⟨m1, e, hs⟩ := hybrid_merge_sort_top id S T
    refine ⟨_, e, ?_⟩
    rw [List.length_append, stableSortOf_length id _ _ hs, List.length_take,
      List.length_drop]
    omega

/-- Witness for C16: the hypothesis holds at `[5,3,1,4,2]` with threshold `2`. -/
theorem sorts_stay_in_bounds_witness :
    (∃ S1, merge_sort id [5, 3, 1, 4, 2] = some S1 ∧ S1.length = [5, 3, 1, 4, 2].length) ∧
    (∃ S2, hybrid_merge_sort id [5, 3, 1, 4, 2] 2 = some S2 ∧
      S2.length = [5, 3, 1, 4, 2].length) :=
  have h := sorts_stay_in_bounds [5, 3, 1, 4, 2] 2 (by decide)
  ⟨h.1, h.2.1⟩

theorem merge_sort_rec_calls_wf : WellFounded merge_sort_rec_calls := by
  apply Subrelation.wf _ (measure (fun p : Int × Int => (p.2 - p.1).toNat)).wf
  intro child parent h
  obtain ⟨hlong, hc⟩ := h
  have hdiv : (parent.2 - parent.1).tdiv 2 = (parent.2 - parent.1) / 2 := by
    rw [Int.tdiv_eq_ediv] <;> omega
  show (child.2 - child.1).toNat < (parent.2 - parent.1).toNat
  rcases hc with rfl | rfl
  · simp only; omega
  · simp only; omega

theorem hybrid_merge_sort_rec_calls_wf (threshold : Int) :
    WellFounded (hybrid_merge_sort_rec_calls threshold) := by
  apply Subrelation.wf _ merge_sort_rec_calls_wf
  intro child parent h
  exact ⟨h.1, h.2.2⟩

/-- C17: for all `l`, `r` with `r - l ≥ 2` the midpoint `m = l + (r - l) / 2` satisfies
`l < m < r`, so both recursive calls are on non-empty, strictly shorter ranges; the
recursive-call relation of `merge_sort_rec` is well founded, and so is that of
`hybrid_merge_sort_rec` for every threshold, negative ones included: the recursion
terminates on every input. -/
theorem midpoint_splits_and_recursion_terminates (l r : Int) (h : r - l ≥ 2) :
    (l < l + (r - l).tdiv 2 ∧ l + (r - l).tdiv 2 < r) ∧
    (0 < (l + (r - l).tdiv 2) - l ∧ (l + (r - l).tdiv 2) - l < r - l) ∧
    (0 < r - (l + (r - l).tdiv 2) ∧ r - (l + (r - l).tdiv 2) < r - l) ∧
    merge_sort_rec_calls (l, l + (r - l).tdiv 2) (l, r) ∧
    merge_sort_rec_calls (l + (r - l).tdiv 2, r) (l, r) ∧
    WellFounded merge_sort_rec_calls ∧
    ∀ threshold : Int, WellFounded (hybrid_merge_sort_rec_calls threshold) := by
  have hdiv : (r - l).tdiv 2 = (r - l) / 2 := by
    rw [Int.tdiv_eq_ediv] <;> omega
  have hlong : ¬ (r - l ≤ 1) := by omega
  refine ⟨⟨by omega, by omega⟩, ⟨by omega, by omega⟩, ⟨by omega, by omega⟩,
    ⟨hlong, Or.inl rfl⟩, ⟨hlong, Or.inr rfl⟩, merge_sort_rec_calls_wf,
    hybrid_merge_sort_rec_calls_wf⟩

/-- Witness for C17: the hypothesis holds at `l = 3`, `r = 8`. -/
theorem midpoint_splits_and_recursion_terminates_witness :
    ((3 : Int) < 3 + ((8 : Int) - 3).tdiv 2 ∧ (3 : Int) + ((8 : Int) - 3).tdiv 2 < 8) ∧
    WellFounded merge_sort_rec_calls ∧
    ∀ threshold : Int, WellFounded (hybrid_merge_sort_rec_calls threshold) :=
  have h := midpoint_splits_and_recursion_terminates 3 8 (by decide)
  ⟨h.1, h.2.2.2.2.2.1, h.2.2.2.2.2.2⟩

theorem hybrid_merge_sort_rec_small_threshold {α : Type} (val : α → Int) (threshold : Int)
    (hT : threshold ≤ 1) (n : Nat) :
    ∀ (a buf : List α) (l r : Int), (r - l).toNat ≤ n →
      hybrid_merge_sort_rec val a buf l r threshold = merge_sort_rec val a buf l r := by
  induction n with
  | zero =>
    intro a buf l r hn
    rw [hybrid_merge_sort_rec, merge_sort_rec]
    have : r - l ≤ 1 := by omega
    simp only [this, if_true]
  | succ n ih =>
    intro a buf l r hn
    rw [hybrid_merge_sort_rec, merge_sort_rec]
    by_cases hshort : r - l ≤ 1
    · simp only [hshort, if_true]
    · have hthr : ¬ (r - l ≤ threshold) := by omega
      have hdiv : (r - l).tdiv 2 = (r - l) / 2 := by rw [Int.tdiv_eq_ediv] <;> omega
      simp only [hshort, if_false, hthr]
      rw [ih a buf l (l + (r - l).tdiv 2) (by omega)]
      cases merge_sort_rec val a buf l (l + (r - l).tdiv 2) with
      | none => rfl
      | some p =>
        obtain ⟨a1, buf1⟩ := p
        simp only
        rw [ih a1 buf1 (l + (r - l).tdiv 2) r (by omega)]

/-- C18: for every threshold `T ≤ 1` (zero and negative ones included) and all `a`, `buf`,
`l`, `r`, `hybrid_merge_sort_rec(a, buf, l, r, T)` and `merge_sort_rec(a, buf, l, r)` give
the same result, the same final array and the same final scratch buffer; whenever the
test `len <= threshold` is reached (`len > 1`) it fails, so the insertion-sort branch is
never taken; and on a range inside the vectors both calls do return. -/
theorem hybrid_merge_sort_rec_eq_merge_sort_rec (T : Int) (hT : T ≤ 1) (a buf : List Int)
    (l r : Int) :
    hybrid_merge_sort_rec id a buf l r T = merge_sort_rec id a buf l r ∧
    (¬ (r - l ≤ 1) → ¬ (r - l ≤ T)) ∧
    (0 ≤ l → l ≤ r → r ≤ a.length → a.length ≤ buf.length →
      ∃ a1 buf1, hybrid_merge_sort_rec id a buf l r T = some (a1, buf1) ∧
        merge_sort_rec id a buf l r = some (a1, buf1)) := by
  have heq := hybrid_merge_sort_rec_small_threshold id T hT (r - l).toNat a buf l r (le_refl _)
  refine ⟨heq, fun h1 h2 => h1 (by omega), ?_⟩
  intro h0 hlr hr hbuf
  obtain ⟨a1, buf1, e, -, -⟩ := merge_sort_rec_range id a buf l r h0 hlr hr hbuf
  exact ⟨a1, buf1, heq.trans e, e⟩

/-- Witness for C18: the hypothesis holds at threshold `-3` on `[5,3,1,4,2]`. -/
theorem hybrid_merge_sort_rec_eq_merge_sort_rec_witness :
    hybrid_merge_sort_rec id [5, 3, 1, 4, 2] [0, 0, 0, 0, 0] 0 5 (-3) =
      merge_sort_rec id [5, 3, 1, 4, 2] [0, 0, 0, 0, 0] 0 5 ∧
    ∃ a1 buf1, hybrid_merge_sort_rec id [5, 3, 1, 4, 2] [0, 0, 0, 0, 0] 0 5 (-3) =
        some (a1, buf1) ∧
      merge_sort_rec id [5, 3, 1, 4, 2] [0, 0, 0, 0, 0] 0 5 = some (a1, buf1) :=
  have h := hybrid_merge_sort_rec_eq_merge_sort_rec (-3) (by decide) [5, 3, 1, 4, 2]
    [0, 0, 0, 0, 0] 0 5
  ⟨h.1, h.2.2 (by decide) (by decide) (by decide) (by decide)⟩

/-! ## Tracked index arithmetic -/

theorem insertion_sort_while_tracked_eq {α : Type} (lo hi : Int) (val : α → Int) (l : Int)
    (key : α) (hlo : lo + 1 ≤ l) (n : Nat) :
    ∀ (a : List α) (j : Int), (j - l + 1).toNat ≤ n → j + 1 ≤ hi →
      insertion_sort_while_tracked lo hi val a l key j = insertion_sort_while val a l key j := by
  induction n with
  | zero =>
    intro a j hn hj
    rw [insertion_sort_while_tracked, insertion_sort_while]
    have : ¬ l ≤ j := by omega
    simp only [this, if_false]
  | succ n ih =>
    intro a j hn hj
    rw [insertion_sort_while_tracked, insertion_sort_while]
    by_cases hlj : l ≤ j
    · simp only [hlj, if_true]
      cases vec_read a j with
      | none => rfl
      | some x =>
        simp only
        by_cases hx : val x > val key
        · have h1 : lo ≤ j + 1 ∧ j + 1 ≤ hi := ⟨by omega, hj⟩
          have h2 : lo ≤ j - 1 ∧ j - 1 ≤ hi := ⟨by omega, by omega⟩
          simp only [hx, if_true, h1, and_self]
          cases vec_write a (j + 1) x with
          | none => rfl
          | some a1 =>
            simp only [h2, and_self, if_true]
            exact ih a1 (j - 1) (by omega) (by omega)
        · simp only [hx, if_false]
    · simp only [hlj, if_false]

theorem insertion_sort_while_index {α : Type} (val : α → Int) (l : Int) (key : α) (n : Nat) :
    ∀ (a a1 : List α) (j j1 : Int), (j - l + 1).toNat ≤ n →
      insertion_sort_while val a l key j = some (a1, j1) →
      j1 ≤ j ∧ (l - 1 ≤ j → l - 1 ≤ j1) := by
  induction n with
  | zero =>
    intro a a1 j j1 hn h
    rw [insertion_sort_while] at h
    have : ¬ l ≤ j := by omega
    simp only [this, if_false, Option.some.injEq, Prod.mk.injEq] at h
    omega
  | succ n ih =>
    intro a a1 j j1 hn h
    rw [insertion_sort_while] at h
    by_cases hlj : l ≤ j
    · simp only [hlj, if_true] at h
      cases hr : vec_read a j with
      | none => simp [hr] at h
      | some x =>
        simp only [hr] at h
        by_cases hx : val x > val key
        · simp only [hx, if_true] at h
          cases hw : vec_write a (j + 1) x with
          | none => simp [hw] at h
          | some a2 =>
            simp only [hw] at h
            have := ih a2 a1 (j - 1) j1 (by omega) h
            omega
        · simp only [hx, if_false, Option.some.injEq, Prod.mk.injEq] at h
          omega
    · simp only [hlj, if_false, Option.some.injEq, Prod.mk.injEq] at h
      omega

theorem insertion_sort_for_tracked_eq {α : Type} (lo hi : Int) (val : α → Int) (l r : Int)
    (hlo : lo + 1 ≤ l) (hhi : r ≤ hi) (n : Nat) :
    ∀ (a : List α) (i : Int), (r - i).toNat ≤ n → l + 1 ≤ i →
      insertion_sort_for_tracked lo hi val a l r i = insertion_sort_for val a l r i := by
  induction n with
  | zero =>
    intro a i hn hil
    rw [insertion_sort_for_tracked, insertion_sort_for]
    have : ¬ i < r := by omega
    simp only [this, if_false]
  | succ n ih =>
    intro a i hn hil
    rw [insertion_sort_for_tracked, insertion_sort_for]
    by_cases hir : i < r
    · simp only [hir, if_true]
      cases vec_read a i with
      | none => rfl
      | some key =>
        have h1 : lo ≤ i - 1 ∧ i - 1 ≤ hi := ⟨by omega, by omega⟩
        simp only [h1, and_self, if_true]
        rw [insertion_sort_while_tracked_eq lo hi val l key hlo (i - 1 - l + 1).toNat a (i - 1)
          (le_refl _) (by omega)]
        cases hw : insertion_sort_while val a l key (i - 1) with
        | none => rfl
        | some p =>
          obtain ⟨a1, j⟩ := p
          have hj := insertion_sort_while_index val l key (i - 1 - l + 1).toNat a a1 (i - 1) j
            (le_refl _) hw
          have h2 : lo ≤ j + 1 ∧ j + 1 ≤ hi := ⟨by omega, by omega⟩
          simp only [h2, and_self, if_true]
          cases vec_write a1 (j + 1) key with
          | none => rfl
          | some a2 =>
            have h3 : lo ≤ i + 1 ∧ i + 1 ≤ hi := ⟨by omega, by omega⟩
            simp only [h3, and_self, if_true]
            exact ih a2 (i + 1) (by omega) (by omega)
    · simp only [hir, if_false]

theorem insertion_sort_tracked_eq {α : Type} (lo hi : Int) (val : α → Int) (a : List α)
    (l r : Int) (hlo : lo + 1 ≤ l) (hlr : l < r) (hhi : r ≤ hi) :
    insertion_sort_tracked lo hi val a l r = insertion_sort val a l r := by
  unfold insertion_sort_tracked insertion_sort
  have h1 : lo ≤ l + 1 ∧ l + 1 ≤ hi := ⟨by omega, by omega⟩
  simp only [h1, and_self, if_true]
  exact insertion_sort_for_tracked_eq lo hi val l r hlo hhi (r - (l + 1)).toNat a (l + 1)
    (le_refl _) (le_refl _)

theorem insertion_sort_tracked_eq_of_le {α : Type} (lo hi : Int) (val : α → Int)
    (a : List α) (l r : Int) (hlo : lo + 1 ≤ l) (hl : l + 1 ≤ hi) (hhi : r ≤ hi) :
    insertion_sort_tracked lo hi val a l r = insertion_sort val a l r := by
  unfold insertion_sort_tracked insertion_sort
  have h1 : lo ≤ l + 1 ∧ l + 1 ≤ hi := ⟨by omega, hl⟩
  simp only [h1, and_self, if_true]
  exact insertion_sort_for_tracked_eq lo hi val l r hlo hhi (r - (l + 1)).toNat a (l + 1)
    (le_refl _) (le_refl _)

theorem insertion_sort_tracked_overflow {α : Type} (val : α → Int) (a : List α) (r : Int) :
    insertion_sort_tracked (-2147483648) 2147483647 val a 2147483647 r = none := by
  unfold insertion_sort_tracked
  rw [if_neg (by omega)]

theorem merge_range_drain_tracked_eq {α : Type} (lo hi : Int) (a : List α) (stop : Int)
    (n : Nat) :
    ∀ (buf : List α) (i k : Int), (stop - i).toNat ≤ n → lo ≤ i + 1 → lo ≤ k + 1 →
      stop ≤ hi → k + (stop - i) ≤ hi →
      merge_range_drain_tracked lo hi a buf stop i k = merge_range_drain a buf stop i k := by
  induction n with
  | zero =>
    intro buf i k hn hib hk hs hks
    rw [merge_range_drain_tracked, merge_range_drain]
    have : ¬ i < stop := by omega
    simp only [this, if_false]
  | succ n ih =>
    intro buf i k hn hib hk hs hks
    rw [merge_range_drain_tracked, merge_range_drain]
    by_cases hlt : i < stop
    · simp only [hlt, if_true]
      cases vec_read a i with
      | none => rfl
      | some x =>
        simp only
        cases vec_write buf k x with
        | none => rfl
        | some buf1 =>
          have h1 : (lo ≤ k + 1 ∧ k + 1 ≤ hi) ∧ (lo ≤ i + 1 ∧ i + 1 ≤ hi) :=
            ⟨⟨by omega, by omega⟩, ⟨by omega, by omega⟩⟩
          simp only [h1, and_self, if_true]
          exact ih buf1 (i + 1) (k + 1) (by omega) (by omega) (by omega) hs (by omega)
    · simp only [hlt, if_false]

theorem merge_range_drain_index {α : Type} (a : List α) (stop : Int) (n : Nat) :
    ∀ (buf buf1 : List α) (i k k1 : Int), (stop - i).toNat ≤ n →
      merge_range_drain a buf stop i k = some (buf1, k1) →
      (i ≤ stop → k1 = k + (stop - i)) ∧ (stop ≤ i → k1 = k) := by
  induction n with
  | zero =>
    intro buf buf1 i k k1 hn h
    rw [merge_range_drain] at h
    have : ¬ i < stop := by omega
    simp only [this, if_false, Option.some.injEq, Prod.mk.injEq] at h
    omega
  | succ n ih =>
    intro buf buf1 i k k1 hn h
    rw [merge_range_drain] at h
    by_cases hlt : i < stop
    · simp only [hlt, if_true] at h
      cases hr : vec_read a i with
      | none => simp [hr] at h
      | some x =>
        simp only [hr] at h
        cases hw : vec_write buf k x with
        | none => simp [hw] at h
        | some buf2 =>
          simp only [hw] at h
          have := ih buf2 buf1 (i + 1) (k + 1) k1 (by omega) h
          omega
    · simp only [hlt, if_false, Option.some.injEq, Prod.mk.injEq] at h
      omega

theorem merge_range_while_tracked_eq {α : Type} (lo hi : Int) (val : α → Int) (a : List α)
    (m r : Int) (n : Nat) :
    ∀ (buf : List α) (i j k : Int), (m - i).toNat + (r - j).toNat ≤ n → lo ≤ i + 1 →
      lo ≤ j + 1 → lo ≤ k + 1 → m ≤ hi → r ≤ hi → k + (m - i) + (r - j) ≤ hi →
      merge_range_while_tracked lo hi val a buf m r i j k =
        merge_range_while val a buf m r i j k := by
  induction n with
  | zero =>
    intro buf i j k hn hib hj hk hm hr hsum
    rw [merge_range_while_tracked, merge_range_while]
    have : ¬ (i < m ∧ j < r) := by omega
    simp only [this, if_false]
  | succ n ih =>
    intro buf i j k hn hib hj hk hm hr hsum
    rw [merge_range_while_tracked, merge_range_while]
    by_cases hlt : i < m ∧ j < r
    · simp only [hlt, and_self, if_true]
      cases vec_read a i with
      | none => rfl
      | some x =>
        cases vec_read a j with
        | none => rfl
        | some y =>
          simp only
          by_cases hxy : val x ≤ val y
          · simp only [hxy, if_true]
            cases vec_write buf k x with
            | none => rfl
            | some buf1 =>
              have h1 : (lo ≤ k + 1 ∧ k + 1 ≤ hi) ∧ (lo ≤ i + 1 ∧ i + 1 ≤ hi) :=
                ⟨⟨by omega, by omega⟩, ⟨by omega, by omega⟩⟩
              simp only [h1, and_self, if_true]
              exact ih buf1 (i + 1) j (k + 1) (by omega) (by omega) hj (by omega) hm hr
                (by omega)
          · simp only [hxy, if_false]
            cases vec_write buf k y with
            | none => rfl
            | some buf1 =>
              have h1 : (lo ≤ k + 1 ∧ k + 1 ≤ hi) ∧ (lo ≤ j + 1 ∧ j + 1 ≤ hi) :=
                ⟨⟨by omega, by omega⟩, ⟨by omega, by omega⟩⟩
              simp only [h1, and_self, if_true]
              exact ih buf1 i (j + 1) (k + 1) (by omega) hib (by omega) (by omega) hm hr
                (by omega)
    · simp only [hlt, if_false]

theorem merge_range_while_index {α : Type} (val : α → Int) (a : List α) (m r : Int)
    (n : Nat) :
    ∀ (buf buf1 : List α) (i j k i1 j1 k1 : Int), (m - i).toNat + (r - j).toNat ≤ n →
      i ≤ m → j ≤ r →
      merge_range_while val a buf m r i j k = some (buf1, i1, j1, k1) →
      i ≤ i1 ∧ i1 ≤ m ∧ j ≤ j1 ∧ j1 ≤ r ∧ k1 - k = (i1 - i) + (j1 - j) := by
  induction n with
  | zero =>
    intro buf buf1 i j k i1 j1 k1 hn him hjr h
    rw [merge_range_while] at h
    have : ¬ (i < m ∧ j < r) := by omega
    simp only [this, if_false, Option.some.injEq, Prod.mk.injEq] at h
    omega
  | succ n ih =>
    intro buf buf1 i j k i1 j1 k1 hn him hjr h
    rw [merge_range_while] at h
    by_cases hlt : i < m ∧ j < r
    · simp only [hlt, and_self, if_true] at h
      cases hx : vec_read a i with
      | none => simp [hx] at h
      | some x =>
        cases hy : vec_read a j with
        | none => simp [hx, hy] at h
        | some y =>
          simp only [hx, hy] at h
          by_cases hxy : val x ≤ val y
          · simp only [hxy, if_true] at h
            cases hw : vec_write buf k x with
            | none => simp [hw] at h
            | some buf2 =>
              simp only [hw] at h
              have := ih buf2 buf1 (i + 1) j (k + 1) i1 j1 k1 (by omega) (by omega) hjr h
              omega
          · simp only [hxy, if_false] at h
            cases hw : vec_write buf k y with
            | none => simp [hw] at h
            | some buf2 =>
              simp only [hw] at h
              have := ih buf2 buf1 i (j + 1) (k + 1) i1 j1 k1 (by omega) him (by omega) h
              omega
    · simp only [hlt, if_false, Option.some.injEq, Prod.mk.injEq] at h
      omega

theorem merge_range_for_tracked_eq {α : Type} (lo hi : Int) (buf : List α) (r : Int)
    (hhi : r ≤ hi) (n : Nat) :
    ∀ (a : List α) (t : Int), (r - t).toNat ≤ n → lo ≤ t + 1 →
      merge_range_for_tracked lo hi a buf r t = merge_range_for a buf r t := by
  induction n with
  | zero =>
    intro a t hn ht
    rw [merge_range_for_tracked, merge_range_for]
    have : ¬ t < r := by omega
    simp only [this, if_false]
  | succ n ih =>
    intro a t hn ht
    rw [merge_range_for_tracked, merge_range_for]
    by_cases hlt : t < r
    · simp only [hlt, if_true]
      cases vec_read buf t with
      | none => rfl
      | some x =>
        simp only
        cases vec_write a t x with
        | none => rfl
        | some a1 =>
          have h1 : lo ≤ t + 1 ∧ t + 1 ≤ hi := ⟨by omega, by omega⟩
          simp only [h1, and_self, if_true]
          exact ih a1 (t + 1) (by omega) (by omega)
    · simp only [hlt, if_false]

theorem merge_range_tracked_eq {α : Type} (lo hi : Int) (val : α → Int) (a buf : List α)
    (l m r : Int) (hlo : lo ≤ l + 1) (hlm : l ≤ m) (hmr : m ≤ r) (hhi : r ≤ hi) :
    merge_range_tracked lo hi val a buf l m r = merge_range val a buf l m r := by
  unfold merge_range_tracked merge_range
  rw [merge_range_while_tracked_eq lo hi val a m r ((m - l).toNat + (r - m).toNat) buf l m l
    (le_refl _) hlo (by omega) hlo (by omega) hhi (by omega)]
  cases hw : merge_range_while val a buf m r l m l with
  | none => rfl
  | some p =>
    obtain ⟨buf1, i, j, k⟩ := p
    have hidx := merge_range_while_index val a m r ((m - l).toNat + (r - m).toNat) buf buf1
      l m l i j k (le_refl _) hlm hmr hw
    simp only
    rw [merge_range_drain_tracked_eq lo hi a m (m - i).toNat buf1 i k (le_refl _) (by omega)
      (by omega) (by omega) (by omega)]
    cases hd : merge_range_drain a buf1 m i k with
    | none => rfl
    | some q =>
      obtain ⟨buf2, k2⟩ := q
      have hk2 := merge_range_drain_index a m (m - i).toNat buf1 buf2 i k k2 (le_refl _) hd
      simp only
      rw [merge_range_drain_tracked_eq lo hi a r (r - j).toNat buf2 j k2 (le_refl _)
        (by omega) (by omega) hhi (by omega)]
      cases merge_range_drain a buf2 r j k2 with
      | none => rfl
      | some q2 =>
        obtain ⟨buf3, k3⟩ := q2
        simp only
        rw [merge_range_for_tracked_eq lo hi buf3 r hhi (r - l).toNat a l (le_refl _) hlo]

theorem merge_sort_rec_tracked_eq {α : Type} (lo hi : Int) (val : α → Int) (hlo : lo ≤ 0)
    (n : Nat) :
    ∀ (a buf : List α) (l r : Int), (r - l).toNat ≤ n → 0 ≤ l → l ≤ r → r ≤ hi →
      merge_sort_rec_tracked lo hi val a buf l r = merge_sort_rec val a buf l r := by
  induction n with
  | zero =>
    intro a buf l r hn h0 hlr hr
    rw [merge_sort_rec_tracked, merge_sort_rec]
    have h1 : lo ≤ r - l ∧ r - l ≤ hi := ⟨by omega, by omega⟩
    have h2 : r - l ≤ 1 := by omega
    simp only [h1, and_self, h2, if_true]
  | succ n ih =>
    intro a buf l r hn h0 hlr hr
    rw [merge_sort_rec_tracked, merge_sort_rec]
    have h1 : lo ≤ r - l ∧ r - l ≤ hi := ⟨by omega, by omega⟩
    by_cases hshort : r - l ≤ 1
    · simp only [h1, and_self, hshort, if_true]
    · have hdiv : (r - l).tdiv 2 = (r - l) / 2 := by rw [Int.tdiv_eq_ediv] <;> omega
      have h2 : (lo ≤ (r - l).tdiv 2 ∧ (r - l).tdiv 2 ≤ hi) ∧
          (lo ≤ l + (r - l).tdiv 2 ∧ l + (r - l).tdiv 2 ≤ hi) :=
        ⟨⟨by omega, by omega⟩, ⟨by omega, by omega⟩⟩
      simp only [h1, and_self, if_true, hshort, if_false, h2]
      rw [ih a buf l (l + (r - l).tdiv 2) (by omega) h0 (by omega) (by omega)]
      cases merge_sort_rec val a buf l (l + (r - l).tdiv 2) with
      | none => rfl
      | some p =>
        obtain ⟨a1, buf1⟩ := p
        simp only
        rw [ih a1 buf1 (l + (r - l).tdiv 2) r (by omega) (by omega) (by omega) hr]
        cases merge_sort_rec val a1 buf1 (l + (r - l).tdiv 2) r with
        | none => rfl
        | some q =>
          obtain ⟨a2, buf2⟩ := q
          simp only
          exact merge_range_tracked_eq lo hi val a2 buf2 l (l + (r - l).tdiv 2) r (by omega)
            (by omega) (by omega) hr

theorem hybrid_merge_sort_rec_tracked_eq {α : Type} (lo hi : Int) (val : α → Int)
    (threshold : Int) (hlo : lo ≤ -1) (n : Nat) :
    ∀ (a buf : List α) (l r : Int), (r - l).toNat ≤ n → 0 ≤ l → l ≤ r → r ≤ hi →
      hybrid_merge_sort_rec_tracked lo hi val a buf l r threshold =
        hybrid_merge_sort_rec val a buf l r threshold := by
  induction n with
  | zero =>
    intro a buf l r hn h0 hlr hr
    rw [hybrid_merge_sort_rec_tracked, hybrid_merge_sort_rec]
    have h1 : lo ≤ r - l ∧ r - l ≤ hi := ⟨by omega, by omega⟩
    have h2 : r - l ≤ 1 := by omega
    simp only [h1, and_self, h2, if_true]
  | succ n ih =>
    intro a buf l r hn h0 hlr hr
    rw [hybrid_merge_sort_rec_tracked, hybrid_merge_sort_rec]
    have h1 : lo ≤ r - l ∧ r - l ≤ hi := ⟨by omega, by omega⟩
    by_cases hshort : r - l ≤ 1
    · simp only [h1, and_self, hshort, if_true]
    · by_cases hthr : r - l ≤ threshold
      · simp only [h1, and_self, if_true, hshort, if_false, hthr]
        rw [insertion_sort_tracked_eq lo hi val a l r (by omega) (by omega) hr]
      · have hdiv : (r - l).tdiv 2 = (r - l) / 2 := by rw [Int.tdiv_eq_ediv] <;> omega
        have h2 : (lo ≤ (r - l).tdiv 2 ∧ (r - l).tdiv 2 ≤ hi) ∧
            (lo ≤ l + (r - l).tdiv 2 ∧ l + (r - l).tdiv 2 ≤ hi) :=
          ⟨⟨by omega, by omega⟩, ⟨by omega, by omega⟩⟩
        simp only [h1, and_self, if_true, hshort, if_false, hthr, h2]
        rw [ih a buf l (l + (r - l).tdiv 2) (by omega) h0 (by omega) (by omega)]
        cases hybrid_merge_sort_rec val a buf l (l + (r - l).tdiv 2) threshold with
        | none => rfl
        | some p =>
          obtain ⟨a1, buf1⟩ := p
          simp only
          rw [ih a1 buf1 (l + (r - l).tdiv 2) r (by omega) (by omega) (by omega) hr]
          cases hybrid_merge_sort_rec val a1 buf1 (l + (r - l).tdiv 2) r threshold with
          | none => rfl
          | some q =>
            obtain ⟨a2, buf2⟩ := q
            simp only
            exact merge_range_tracked_eq lo hi val a2 buf2 l (l + (r - l).tdiv 2) r
              (by omega) (by omega) (by omega) hr

theorem merge_sort_tracked_eq {α : Type} [Inhabited α] (lo hi : Int) (val : α → Int)
    (S : List α) (hlo : lo ≤ -1) (hlen : S.length ≤ 2147483647) (hhi : (S.length : Int) ≤ hi) :
    merge_sort_tracked lo hi val S = merge_sort val S := by
  have hc := static_cast_int_of_lt S.length (by omega)
  unfold merge_sort_tracked merge_sort
  have h1 : lo ≤ static_cast_int S.length ∧ static_cast_int S.length ≤ hi := by
    rw [hc]; exact ⟨by omega, hhi⟩
  simp only [h1, and_self, if_true]
  rw [merge_sort_rec_tracked_eq lo hi val (by omega) (static_cast_int S.length - 0).toNat _ _
    0 (static_cast_int S.length) (le_refl _) (le_refl _) (by omega) (by omega)]

theorem hybrid_merge_sort_tracked_eq {α : Type} [Inhabited α] (lo hi : Int) (val : α → Int)
    (S : List α) (threshold : Int) (hlo : lo ≤ -1) (hlen : S.length ≤ 2147483647)
    (hhi : (S.length : Int) ≤ hi) :
    hybrid_merge_sort_tracked lo hi val S threshold = hybrid_merge_sort val S threshold := by
  have hc := static_cast_int_of_lt S.length (by omega)
  unfold hybrid_merge_sort_tracked hybrid_merge_sort
  have h1 : lo ≤ static_cast_int S.length ∧ static_cast_int S.length ≤ hi := by
    rw [hc]; exact ⟨by omega, hhi⟩
  simp only [h1, and_self, if_true]
  rw [hybrid_merge_sort_rec_tracked_eq lo hi val threshold hlo
    (static_cast_int S.length - 0).toNat _ _ 0 (static_cast_int S.length) (le_refl _)
    (le_refl _) (by omega) (by omega)]

/-- C19: for every integer sequence `S` of length `n ≤ 2^31 - 1` and every threshold `T`,
the runs of `merge_sort(S)` and `hybrid_merge_sort(S, T)` in which every index computation
is required to stay within `[-1, n]` return, with the results of the untracked runs: no
index computation leaves `[-1, n]`.  This window lies inside the range of the 32-bit
`int`, so the runs tracked against that range return as well: no computation overflows. -/
theorem index_arithmetic_within_window (S : List Int) (T : Int)
    (hlen : S.length ≤ 2147483647) :
    (∃ S1, merge_sort_tracked (-1) S.length id S = some S1 ∧ merge_sort id S = some S1) ∧
    (∃ S2, hybrid_merge_sort_tracked (-1) S.length id S T = some S2 ∧
      hybrid_merge_sort id S T = some S2) ∧
    ((-2147483648 : Int) ≤ -1 ∧ (S.length : Int) ≤ 2147483647) ∧
    (∃ S1, merge_sort_tracked (-2147483648) 2147483647 id S = some S1 ∧
      merge_sort id S = some S1) ∧
    (∃ S2, hybrid_merge_sort_tracked (-2147483648) 2147483647 id S T = some S2 ∧
      hybrid_merge_sort id S T = some S2) := by
  obtain ⟨m1, e1, -⟩ := merge_sort_top id S
  obtain ⟨m2, e2, -⟩ := hybrid_merge_sort_top id S T
  have hn : (S.length : Int) ≤ 2147483647 := by omega
  refine ⟨⟨_, ?_, e1⟩, ⟨_, ?_, e2⟩, ⟨by omega, hn⟩, ⟨_, ?_, e1⟩, ⟨_, ?_, e2⟩⟩
  · rw [merge_sort_tracked_eq (-1) S.length id S (by omega) hlen (le_refl _), e1]
  · rw [hybrid_merge_sort_tracked_eq (-1) S.length id S T (by omega) hlen (le_refl _), e2]
  · rw [merge_sort_tracked_eq (-2147483648) 2147483647 id S (by omega) hlen hn, e1]
  · rw [hybrid_merge_sort_tracked_eq (-2147483648) 2147483647 id S T (by omega) hlen hn, e2]

/-- Witness for C19: the hypothesis holds at `[5,3,1,4,2]` with threshold `3`. -/
theorem index_arithmetic_within_window_witness :
    (∃ S1, merge_sort_tracked (-1) ([5, 3, 1, 4, 2] : List Int).length id [5, 3, 1, 4, 2] =
        some S1 ∧ merge_sort id [5, 3, 1, 4, 2] = some S1) ∧
    (∃ S2, hybrid_merge_sort_tracked (-1) ([5, 3, 1, 4, 2] : List Int).length id
        [5, 3, 1, 4, 2] 3 = some S2 ∧ hybrid_merge_sort id [5, 3, 1, 4, 2] 3 = some S2) :=
  have h := index_arithmetic_within_window [5, 3, 1, 4, 2] 3 (by decide)
  ⟨h.1, h.2.1⟩

/-! ## Direct calls of `insertion_sort` and the frame -/

/-- C8 (amended): for every integer sequence `a` and indices `0 ≤ l ≤ r ≤ length(a)` with
`l < 2^31 - 1`, `insertion_sort(a, l, r)` returns, and afterwards the elements at
positions `[l, r)` are non-decreasing and a permutation of the elements that were at
positions `[l, r)`; and when `r` is an `int` the run in which every index computation is
checked against the range of `int` returns the same array. -/
theorem insertion_sort_range_sorted_perm (a : List Int) (l r : Int) (h0 : 0 ≤ l) (hlr : l ≤ r)
    (hr : r ≤ a.length) (hl : l < 2147483647) :
    ∃ a1, insertion_sort id a l r = some a1 ∧
      List.Sorted (fun x y => x ≤ y) (slice a1 l r) ∧ (slice a1 l r).Perm (slice a l r) ∧
      (2147483647 < r ∨
        insertion_sort_tracked (-2147483648) 2147483647 id a l r = some a1) := by
  have hlen := slice_length a l r h0 hlr hr
  have hpre : ((a.take l.toNat).length : Int) = l := by
    rw [List.length_take]; omega
  have hspec := insertion_sort_spec id (a.take l.toNat) (slice a l r) (a.drop r.toNat) l r
    (by omega) (by omega)
  rw [slice_decomp a l r h0 hlr] at hspec
  have hs := insertion_sorted_spec id (slice a l r)
  have hmid := slice_mid (a.take l.toNat) (insertion_sorted id (slice a l r)) (a.drop r.toNat)
    l r (by omega) (by rw [stableSortOf_length id _ _ hs]; omega)
  refine ⟨_, hspec, ?_, ?_, ?_⟩
  · rw [hmid]; exact (stableSortOf_sorted_perm _ _ hs).1
  · rw [hmid]; exact hs.2.1
  · by_cases hrmax : 2147483647 < r
    · exact Or.inl hrmax
    · refine Or.inr ?_
      rw [insertion_sort_tracked_eq_of_le (-2147483648) 2147483647 id a l r (by omega)
        (by omega) (by omega)]
      exact hspec

/-- Witness for C8: the hypotheses hold for the range `[1, 4)` of `[9,4,3,1,0]`. -/
theorem insertion_sort_range_sorted_perm_witness :
    ∃ a1, insertion_sort id [9, 4, 3, 1, 0] 1 4 = some a1 ∧
      List.Sorted (fun x y => x ≤ y) (slice a1 1 4) ∧
      (slice a1 1 4).Perm (slice [9, 4, 3, 1, 0] 1 4) ∧
      ((2147483647 : Int) < 4 ∨
        insertion_sort_tracked (-2147483648) 2147483647 id [9, 4, 3, 1, 0] 1 4 = some a1) :=
  insertion_sort_range_sorted_perm [9, 4, 3, 1, 0] 1 4 (by decide) (by decide) (by decide)
    (by decide)

/-- Counterexample to C8 as stated: on a vector of `2^31 - 1` zeros with
`l = r = 2^31 - 1` the indices satisfy `0 ≤ l ≤ r ≤ length(a)`, but `int i = l + 1`
overflows the 32-bit `int`: the run checked against the range of `int` has no result. -/
theorem insertion_sort_overflows_at_int_max :
    (0 : Int) ≤ 2147483647 ∧ (2147483647 : Int) ≤ 2147483647 ∧
      (2147483647 : Int) ≤ ((List.replicate 2147483647 (0 : Int)).length : Int) ∧
      insertion_sort_tracked (-2147483648) 2147483647 id
        (List.replicate 2147483647 (0 : Int)) 2147483647 2147483647 = none := by
  refine ⟨by omega, by omega, ?_, insertion_sort_tracked_overflow id _ _⟩
  rw [List.length_replicate]
  omega

/-- C13 (amended, frame): for every `a`, `buf` and
`0 ≤ l ≤ m ≤ r ≤ length(a) ≤ length(buf)`, each of `merge_range(a, buf, l, m, r)`,
`merge_sort_rec(a, buf, l, r)` and `hybrid_merge_sort_rec(a, buf, l, r, T)` returns and
leaves `a` and `buf` unchanged at every position outside `[l, r)`, and so does
`insertion_sort(a, l, r)` (which has no access to `buf`) when `l < 2^31 - 1`, also in the
run checked against the range of `int` when `r` is an `int`; hence the recursive call on
`[l, m)` leaves `[m, r)` as it was and the call on `[m, r)` leaves `[l, m)` as it was, in
`a` and in `buf`. -/
theorem sorts_frame (a buf : List Int) (l m r T : Int) (h0 : 0 ≤ l) (hlm : l ≤ m)
    (hmr : m ≤ r) (hr : r ≤ a.length) (hbuf : a.length ≤ buf.length) :
    (l < 2147483647 →
      ∃ a1, insertion_sort id a l r = some a1 ∧ unchanged_outside l r a a1 ∧
        (2147483647 < r ∨
          insertion_sort_tracked (-2147483648) 2147483647 id a l r = some a1)) ∧
    (∃ a1 buf1, merge_range id a buf l m r = some (a1, buf1) ∧
      unchanged_outside l r a a1 ∧ unchanged_outside l r buf buf1) ∧
    (∃ a1 buf1, merge_sort_rec id a buf l r = some (a1, buf1) ∧
      unchanged_outside l r a a1 ∧ unchanged_outside l r buf buf1) ∧
    (∃ a1 buf1, hybrid_merge_sort_rec id a buf l r T = some (a1, buf1) ∧
      unchanged_outside l r a a1 ∧ unchanged_outside l r buf buf1) ∧
    (∃ a1 buf1, merge_sort_rec id a buf l m = some (a1, buf1) ∧
      slice a1 m r = slice a m r ∧ slice buf1 m r = slice buf m r) ∧
    (∃ a1 buf1, merge_sort_rec id a buf m r = some (a1, buf1) ∧
      slice a1 l m = slice a l m ∧ slice buf1 l m = slice buf l m) ∧
    (∃ a1 buf1, hybrid_merge_sort_rec id a buf l m T = some (a1, buf1) ∧
      slice a1 m r = slice a m r ∧ slice buf1 m r = slice buf m r) ∧
    (∃ a1 buf1, hybrid_merge_sort_rec id a buf m r T = some (a1, buf1) ∧
      slice a1 l m = slice a l m ∧ slice buf1 l m = slice buf l m) := by
  refine ⟨?_, merge_range_range id a buf l m r h0 hlm hmr hr hbuf,
    merge_sort_rec_range id a buf l r h0 (by omega) hr hbuf,
    hybrid_merge_sort_rec_range id a buf l r T h0 (by omega) hr hbuf, ?_, ?_, ?_, ?_⟩
  · intro hl
    obtain ⟨a1, e, hf⟩ := insertion_sort_range id a l r h0 (by omega) hr
    refine ⟨a1, e, hf, ?_⟩
    by_cases hrmax : 2147483647 < r
    · exact Or.inl hrmax
    · refine Or.inr ?_
      rw [insertion_sort_tracked_eq_of_le (-2147483648) 2147483647 id a l r (by omega)
        (by omega) (by omega)]
      exact e
  · obtain ⟨a1, buf1, e, ha, hb⟩ := merge_sort_rec_range id a buf l m h0 hlm (by omega) hbuf
    exact ⟨a1, buf1, e, slice_eq_of_unchanged_outside a a1 l m m r ha (by omega) (Or.inr
      (le_refl _)), slice_eq_of_unchanged_outside buf buf1 l m m r hb (by omega) (Or.inr
      (le_refl _))⟩
  · obtain ⟨a1, buf1, e, ha, hb⟩ := merge_sort_rec_range id a buf m r (by omega) hmr hr hbuf
    exact ⟨a1, buf1, e, slice_eq_of_unchanged_outside a a1 m r l m ha h0 (Or.inl
      (le_refl _)), slice_eq_of_unchanged_outside buf buf1 m r l m hb h0 (Or.inl
      (le_refl _))⟩
  · obtain ⟨a1, buf1, e, ha, hb⟩ :=
      hybrid_merge_sort_rec_range id a buf l m T h0 hlm (by omega) hbuf
    exact ⟨a1, buf1, e, slice_eq_of_unchanged_outside a a1 l m m r ha (by omega) (Or.inr
      (le_refl _)), slice_eq_of_unchanged_outside buf buf1 l m m r hb (by omega) (Or.inr
      (le_refl _))⟩
  · obtain ⟨a1, buf1, e, ha, hb⟩ :=
      hybrid_merge_sort_rec_range id a buf m r T (by omega) hmr hr hbuf
    exact ⟨a1, buf1, e, slice_eq_of_unchanged_outside a a1 m r l m ha h0 (Or.inl
      (le_refl _)), slice_eq_of_unchanged_outside buf buf1 m r l m hb h0 (Or.inl
      (le_refl _))⟩

/-- Witness for C13: the hypotheses hold for `[9,4,3,1,0]` with a scratch buffer of six
zeros, `l = 1`, `m = 2`, `r = 4` and threshold `2`. -/
theorem sorts_frame_witness :
    (∃ a1, insertion_sort id [9, 4, 3, 1, 0] 1 4 = some a1 ∧
      unchanged_outside 1 4 [9, 4, 3, 1, 0] a1 ∧
      ((2147483647 : Int) < 4 ∨
        insertion_sort_tracked (-2147483648) 2147483647 id [9, 4, 3, 1, 0] 1 4 = some a1)) ∧
    (∃ a1 buf1, merge_range id [9, 4, 3, 1, 0] [0, 0, 0, 0, 0, 0] 1 2 4 = some (a1, buf1) ∧
      unchanged_outside 1 4 [9, 4, 3, 1, 0] a1 ∧
      unchanged_outside 1 4 [0, 0, 0, 0, 0, 0] buf1) ∧
    (∃ a1 buf1, merge_sort_rec id [9, 4, 3, 1, 0] [0, 0, 0, 0, 0, 0] 1 4 = some (a1, buf1) ∧
      unchanged_outside 1 4 [9, 4, 3, 1, 0] a1 ∧
      unchanged_outside 1 4 [0, 0, 0, 0, 0, 0] buf1) ∧
    (∃ a1 buf1,
      hybrid_merge_sort_rec id [9, 4, 3, 1, 0] [0, 0, 0, 0, 0, 0] 1 4 2 = some (a1, buf1) ∧
      unchanged_outside 1 4 [9, 4, 3, 1, 0] a1 ∧
      unchanged_outside 1 4 [0, 0, 0, 0, 0, 0] buf1) :=
  have h := sorts_frame [9, 4, 3, 1, 0] [0, 0, 0, 0, 0, 0] 1 2 4 2 (by decide) (by decide)
    (by decide) (by decide) (by decide)
  ⟨h.1 (by decide), h.2.1, h.2.2.1, h.2.2.2.1⟩

/-- Counterexample to C13 as stated: on a vector of `2^31 - 1` ones and a scratch buffer
of `2^31` zeros with `l = m = r = 2^31 - 1` the indices satisfy
`0 ≤ l ≤ m ≤ r ≤ length(a) ≤ length(buf)`, but in `insertion_sort(a, l, r)` the sum
`l + 1` overflows the 32-bit `int`: the run checked against the range of `int` has no
result, so nothing is promised about the positions outside `[l, r)`. -/
theorem insertion_sort_frame_overflows_at_int_max :
    (0 : Int) ≤ 2147483647 ∧ (2147483647 : Int) ≤ 2147483647 ∧
      (2147483647 : Int) ≤ ((List.replicate 2147483647 (1 : Int)).length : Int) ∧
      (List.replicate 2147483647 (1 : Int)).length ≤
        (List.replicate 2147483648 (0 : Int)).length ∧
      insertion_sort_tracked (-2147483648) 2147483647 id
        (List.replicate 2147483647 (1 : Int)) 2147483647 2147483647 = none := by
  refine ⟨by omega, by omega, ?_, ?_, insertion_sort_tracked_overflow id _ _⟩
  · rw [List.length_replicate]
    omega
  · rw [List.length_replicate, List.length_replicate]
    omega

end Bench
